import Mathlib

/-!
# The code/data logger of snes9x-rr (`codedatalogger.h`, `codedatalogger.cpp`)

A shallow embedding of `CCodeDataLog` and of the binary codec it is saved with,
followed by theorems about the codec primitives and about `Set`, `New`,
`Load`, `LoadAsIs` and `Save`.

Conventions of the embedding.

* A byte (`uint8_t`, `char`) is a `Fin 256`; wider machine integers are `Nat`,
  reduced modulo `2 ^ 32` wherever the source stores them in a 32-bit object.
  The source passes a `size_t*` where `readLeb128` expects `unsigned int*`, so it
  is a 32-bit build and `size_t` is 32 bits wide.
* A file opened for reading is the list of bytes not yet consumed; a reader
  returns `none` where the source returns `false`.
* A file opened for writing carries the bytes written so far and the number of
  bytes the device still accepts; a write that does not fit fails, as a full
  disk makes `fputc`/`fwrite` fail.
* A path is modelled by what `fopen` finds there: `none` when it cannot be
  opened.
-/

set_option autoImplicit false

/-- One octet: `uint8_t` and `char` of the source. -/
abbrev Byte := Fin 256

/-- The bytes of a string literal of the source. -/
def cbytes (s : String) : List Byte :=
  s.toList.map (fun ch => Fin.ofNat ch.toNat)

/-- The C string held in a zero-terminated buffer: what `strlen` and the
`std::string(const char*)` constructor see, the bytes before the first zero. -/
def cstr (buffer : List Byte) : List Byte :=
  buffer.takeWhile (fun b => decide (b ≠ 0))

/-- Modelled from the spec: the macro `READ_DWORD` of `port.h`, which is not
among the sources. The spec fixes the fixed-width integers of the file format
as four bytes in big-endian order. -/
def READ_DWORD (b0 b1 b2 b3 : Byte) : Nat :=
  b0.val * 2 ^ 24 + b1.val * 2 ^ 16 + b2.val * 2 ^ 8 + b3.val

/-- Modelled from the spec: the macro `WRITE_DWORD` of `port.h`, which is not
among the sources. The spec fixes the fixed-width integers of the file format
as four bytes in big-endian order. The value is a `uint32_t`. -/
def WRITE_DWORD (value : Nat) : List Byte :=
  [Fin.ofNat (value / 2 ^ 24), Fin.ofNat (value / 2 ^ 16), Fin.ofNat (value / 2 ^ 8),
    Fin.ofNat value]

/-! ## Streams -/

/-- A `FILE*` opened with `"rb"`: the bytes not yet read. -/
abbrev InStream := List Byte

/-- A `FILE*` opened with `"wb"`: `room` is the number of bytes the device still
accepts, `data` the bytes written so far. -/
structure OutStream where
  room : Nat
  data : List Byte
deriving DecidableEq

/-- The call `fputc(c, fp)`: `none` stands for `EOF`. -/
def fputc (c : Byte) (fp : OutStream) : Option OutStream :=
  if fp.room = 0 then none else some ⟨fp.room - 1, fp.data ++ [c]⟩

/-- The test `fwrite(buf, 1, n, fp) == n` (and `fwrite(buf, n, 1, fp) == 1`) with `buf`
holding `n` bytes: `none` stands for a short write. -/
def fwrite (buf : List Byte) (fp : OutStream) : Option OutStream :=
  if fp.room < buf.length then none else some ⟨fp.room - buf.length, fp.data ++ buf⟩

/-- The call `fread(buf, 1, n, fp)` into a buffer holding `buf`: the bytes read replace
the front of the buffer. Returns the number of bytes read, the buffer and the
stream. -/
def fread (buf : List Byte) (n : Nat) (fp : InStream) : Nat × List Byte × InStream :=
  ((fp.take n).length, fp.take n ++ buf.drop (fp.take n).length, fp.drop n)

/-! ## Codec primitives (anonymous namespace of `codedatalogger.cpp`) -/

/-- Function `readInt`: four bytes through `READ_DWORD`. -/
def readInt (fp : InStream) : Option (Nat × InStream) :=
  match fp with
  | b0 :: b1 :: b2 :: b3 :: rest => some (READ_DWORD b0 b1 b2 b3, rest)
  | _ => none

/-- The `while (true)` loop of `readLeb128`, with the locals `v` and `shift`.
`v` is an `unsigned int`, so the group shifted into it is reduced modulo
`2 ^ 32`. (From the sixth group on the source shifts an `int` by 35 or more,
which C++ leaves undefined; the model then adds nothing to `v`.) -/
def readLeb128Loop : InStream → Nat → Nat → Option (Nat × InStream)
  | [], _, _ => none
  | c :: fp, v, shift =>
    let v := v ||| ((c.val &&& 0x7f) <<< shift) % 2 ^ 32
    if c.val &&& 0x80 = 0 then some (v, fp) else readLeb128Loop fp v (shift + 7)

/-- Function `readLeb128`: the loop from `v = 0`, `shift = 0`. -/
def readLeb128 (fp : InStream) : Option (Nat × InStream) :=
  readLeb128Loop fp 0 0

/-- Function `expectString`: `some` of the stream after the string when it is there. -/
def expectString (fp : InStream) (value : List Byte) : Option InStream :=
  match readLeb128 fp with
  | none => none
  | some (size, fp) =>
    if value.length ≠ size then none
    else
      let (n, s, fp) := fread (List.replicate size 0) size fp
      if n ≠ size then none
      else if s = value then some fp else none

/-- Function `readString`: on success the buffer up to and including the terminating
zero written at `buffer[size]`, and the stream after the string. -/
def readString (fp : InStream) (capacity : Nat) : Option (List Byte × InStream) :=
  match readLeb128 fp with
  | none => none
  | some (size, fp) =>
    if capacity ≤ size then none
    else
      let (n, buffer, fp) := fread (List.replicate size 0) size fp
      if n ≠ size then none
      else some (buffer ++ [0], fp)

/-- Function `writeInt`: the argument is a `uint32_t`. -/
def writeInt (fp : OutStream) (value : Nat) : Option OutStream :=
  fwrite (WRITE_DWORD (value % 2 ^ 32)) fp

/-- The `do ... while (value != 0)` loop of `writeLeb128`. The first argument
bounds the number of rounds; five rounds exhaust a 32-bit value. -/
def writeLeb128Loop : Nat → Nat → OutStream → Option OutStream
  | 0, _, fp => some fp
  | rounds + 1, value, fp =>
    let c := value &&& 0x7f
    let value := value >>> 7
    let c := if value ≠ 0 then c ||| 0x80 else c
    match fputc (Fin.ofNat c) fp with
    | none => none
    | some fp => if value ≠ 0 then writeLeb128Loop rounds value fp else some fp

/-- Function `writeLeb128`: the argument is an `unsigned int`. -/
def writeLeb128 (fp : OutStream) (value : Nat) : Option OutStream :=
  writeLeb128Loop 5 (value % 2 ^ 32) fp

/-- Function `writeString`: the length, then the bytes. -/
def writeString (fp : OutStream) (value : List Byte) : Option OutStream :=
  match writeLeb128 fp value.length with
  | none => none
  | some fp => fwrite value fp

/-! ## The container -/

/-- The enumerator `eCDLog_AddrType_NUM`. -/
abbrev eCDLog_AddrType_NUM : Nat := 8

/-- The enumeration `eCDLog_AddrType`: the index of a block. -/
abbrev eCDLog_AddrType := Fin eCDLog_AddrType_NUM

def eCDLog_AddrType_CARTROM : eCDLog_AddrType := 0
def eCDLog_AddrType_CARTRAM : eCDLog_AddrType := 1
def eCDLog_AddrType_WRAM : eCDLog_AddrType := 2
def eCDLog_AddrType_APURAM : eCDLog_AddrType := 3
def eCDLog_AddrType_SGB_CARTROM : eCDLog_AddrType := 4
def eCDLog_AddrType_SGB_CARTRAM : eCDLog_AddrType := 5
def eCDLog_AddrType_SGB_WRAM : eCDLog_AddrType := 6
def eCDLog_AddrType_SGB_HRAM : eCDLog_AddrType := 7

/-- The enumerator `eCDLog_Flags_None`. -/
def eCDLog_Flags_None : Byte := 0x00

/-- The values `0 .. eCDLog_AddrType_NUM - 1` in the order the `for` loops of
the source visit them. -/
def addrTypes : List eCDLog_AddrType := [0, 1, 2, 3, 4, 5, 6, 7]

/-- Modelled from the spec: the two fields of `CMemory` (`memmap.h`, not among
the sources) that `New` reads: the calculated ROM size and the SRAM size
code. -/
structure CMemory where
  CalculatedSize : Nat
  SRAMSize : Nat
deriving DecidableEq

/-- The `struct CCodeDataLog`: eight blocks and the `active` flag. -/
structure CCodeDataLog where
  blocks : eCDLog_AddrType → List Byte
  active : Bool

namespace CCodeDataLog

/-- The constructor `CCodeDataLog() : active(true) {}`: eight empty vectors. -/
def ctor : CCodeDataLog := ⟨fun _ => [], true⟩

/-- The array `kBlockNames`. -/
def kBlockNames (i : eCDLog_AddrType) : List Byte :=
  cbytes (["CARTROM", "CARTRAM", "WRAM", "APURAM", "SGB_CARTROM", "SGB_CARTRAM", "SGB_WRAM",
    "SGB_HRAM"].getD i.val "")

/-- Assignment to `blocks[type]`. -/
def setBlock (c : CCodeDataLog) (type : eCDLog_AddrType) (block : List Byte) : CCodeDataLog :=
  ⟨fun i => if i = type then block else c.blocks i, c.active⟩

/-- The call `std::vector<uint8_t>::resize(n)`: keeps the front, pads with zeros. -/
def resize (v : List Byte) (n : Nat) : List Byte :=
  v.take n ++ List.replicate (n - v.length) 0

/-- Method `CountActiveBlocks`. -/
def CountActiveBlocks (c : CCodeDataLog) : Nat :=
  addrTypes.countP (fun i => decide (c.blocks i ≠ []))

/-- Method `Set`. The element access `blocks[addrType][addr]` is checked: `none`
stands for an access outside the vector. The values of `eCDLog_Flags` fit a
byte, and `addr` ranges over all naturals, the `uint32_t` ones among them. -/
def Set (c : CCodeDataLog) (addrType : eCDLog_AddrType) (flags : Byte) (addr : Nat) :
    Option CCodeDataLog :=
  if !c.active then some c
  else if addr ≥ (c.blocks addrType).length then some c
  else
    match (c.blocks addrType)[addr]? with
    | none => none
    | some old => some (c.setBlock addrType ((c.blocks addrType).set addr (old ||| flags)))

/-- The four `resize` calls of `New`. `CalculatedSize` is a `uint32`; the
CARTRAM size is computed in `int` and converted to `size_t`. -/
def sizeBlocks (c : CCodeDataLog) (memory : CMemory) : CCodeDataLog :=
  let c := c.setBlock eCDLog_AddrType_CARTROM
    (resize (c.blocks eCDLog_AddrType_CARTROM) (memory.CalculatedSize % 2 ^ 32))
  let c := c.setBlock eCDLog_AddrType_CARTRAM
    (resize (c.blocks eCDLog_AddrType_CARTRAM)
      (if memory.SRAMSize ≠ 0 then ((1 <<< (memory.SRAMSize + 3)) * 128) % 2 ^ 32 else 0))
  let c := c.setBlock eCDLog_AddrType_WRAM (resize (c.blocks eCDLog_AddrType_WRAM) 0x20000)
  c.setBlock eCDLog_AddrType_APURAM (resize (c.blocks eCDLog_AddrType_APURAM) 0x10000)

/-- The loop of `New`: `std::fill` with `eCDLog_Flags_None` over every non-empty
block. -/
def fillBlocks (c : CCodeDataLog) : CCodeDataLog :=
  ⟨fun i => if c.blocks i ≠ [] then List.replicate (c.blocks i).length eCDLog_Flags_None
    else c.blocks i, c.active⟩

/-- Method `New`. -/
def New (c : CCodeDataLog) (memory : CMemory) : CCodeDataLog :=
  fillBlocks (sizeBlocks c memory)

/-- Method `Close`. -/
def Close (c : CCodeDataLog) : CCodeDataLog :=
  ⟨fun _ => [], c.active⟩

/-- The dictionary `addrTypeDict` that `LoadAsIs` builds from `kBlockNames`, and
its `find`: the names are pairwise distinct, so a name has at most one entry. -/
def addrTypeDict_find (name : List Byte) : Option eCDLog_AddrType :=
  addrTypes.find? (fun i => decide (kBlockNames i = name))

/-- The `for (int i = 0; i < static_cast<int>(count); i++)` loop of `LoadAsIs`;
the first argument is the number of rounds left. Every `goto fail` ends in
`Close()` and `false`. -/
def loadBlocks : Nat → CCodeDataLog → InStream → Bool × CCodeDataLog
  | 0, c, _ => (true, c)
  | rounds + 1, c, fp =>
    match readString fp 32 with
    | none => (false, c.Close)
    | some (name, fp) =>
      match readInt fp with
      | none => (false, c.Close)
      | some (size, fp) =>
        match addrTypeDict_find (cstr name) with
        | none => loadBlocks rounds c fp
        | some type =>
          let (n, block, fp) := fread (resize (c.blocks type) size) size fp
          if n ≠ size then (false, c.Close)
          else loadBlocks rounds (c.setBlock type block) fp

/-- The number of rounds of the loop of `LoadAsIs`: `count` is a `uint32_t`
compared after `static_cast<int>`. -/
def loadRounds (count : Nat) : Nat :=
  if count < 2 ^ 31 then count else 0

/-- Method `LoadAsIs`; the argument is what `fopen(path, "rb")` finds. -/
def LoadAsIs (c : CCodeDataLog) (file : Option InStream) : Bool × CCodeDataLog :=
  match file with
  | none => (false, c)
  | some fp =>
    match expectString fp (cbytes "BIZHAWK-CDL-2") with
    | none => (false, c.Close)
    | some fp =>
      match expectString fp (cbytes "SNES           ") with
      | none => (false, c.Close)
      | some fp =>
        match readInt fp with
        | none => (false, c.Close)
        | some (count, fp) => loadBlocks (loadRounds count) c.Close fp

/-- The merge loop of `Load` on one block: `blocks[i][addr] |= other.blocks[i][addr]`
for every `addr` (the two blocks have the same length when it runs). -/
def mergeBlock (block other : List Byte) : List Byte :=
  List.zipWith (fun a b => a ||| b) block other

/-- Method `Load`; `other` is the local `CCodeDataLog other`. -/
def Load (c : CCodeDataLog) (file : Option InStream) : Bool × CCodeDataLog :=
  let (ok, other) := LoadAsIs ctor file
  if !ok then (false, c)
  else if c.CountActiveBlocks ≠ other.CountActiveBlocks then (false, c)
  else if addrTypes.any (fun i => decide ((c.blocks i).length ≠ (other.blocks i).length)) then
    (false, c)
  else
    (true, ⟨fun i => if c.blocks i = [] then c.blocks i
      else mergeBlock (c.blocks i) (other.blocks i), c.active⟩)

/-- The `for` loop of `Save` over the block indices. -/
def saveBlocks (c : CCodeDataLog) : List eCDLog_AddrType → OutStream → Option OutStream
  | [], fp => some fp
  | i :: rest, fp =>
    if c.blocks i = [] then saveBlocks c rest fp
    else
      match writeString fp (kBlockNames i) with
      | none => none
      | some fp =>
        match writeInt fp (c.blocks i).length with
        | none => none
        | some fp =>
          match fwrite (c.blocks i) fp with
          | none => none
          | some fp => saveBlocks c rest fp

/-- Method `Save`; the argument is what `fopen(path, "wb")` gives: `none` when the file
cannot be opened, else the number of bytes the device accepts. The result is
`some` of the bytes of the file when `Save` returns `true`, `none` when it
returns `false`. -/
def Save (c : CCodeDataLog) (dest : Option Nat) : Option (List Byte) :=
  match dest with
  | none => none
  | some room =>
    let fp : OutStream := ⟨room, []⟩
    let count := c.CountActiveBlocks
    match writeString fp (cbytes "BIZHAWK-CDL-2") with
    | none => none
    | some fp =>
      match writeString fp (cbytes "SNES           ") with
      | none => none
      | some fp =>
        match writeInt fp count with
        | none => none
        | some fp =>
          match saveBlocks c addrTypes fp with
          | none => none
          | some fp => some fp.data

end CCodeDataLog

/-! ## The file format, as the spec lays it out -/

/-- A length-prefixed string whose length fits in one LEB128 byte: the length,
then the bytes. -/
def lpString (s : List Byte) : List Byte :=
  Fin.ofNat s.length :: s

/-- The header of a file: the two length-prefixed literals. -/
def fileHeader : List Byte :=
  lpString (cbytes "BIZHAWK-CDL-2") ++ lpString (cbytes "SNES           ")

/-- One block record: length-prefixed name, four-byte length, the data. -/
def encodeRecord (r : List Byte × List Byte) : List Byte :=
  lpString r.1 ++ WRITE_DWORD r.2.length ++ r.2

/-- A sequence of block records. -/
def encodeRecords (rs : List (List Byte × List Byte)) : List Byte :=
  (rs.map encodeRecord).flatten

/-- A whole file: header, block count, the records. -/
def encodeFile (rs : List (List Byte × List Byte)) : List Byte :=
  fileHeader ++ WRITE_DWORD rs.length ++ encodeRecords rs

namespace CCodeDataLog

/-- The block records of a container: the non-empty blocks in index order, each
under its fixed name. -/
def blockRecords (c : CCodeDataLog) (types : List eCDLog_AddrType) :
    List (List Byte × List Byte) :=
  (types.filter (fun i => decide (c.blocks i ≠ []))).map (fun i => (kBlockNames i, c.blocks i))

/-- The three tests of `Load` that precede the merge loop. -/
def loadAccepts (c other : CCodeDataLog) : Prop :=
  c.CountActiveBlocks = other.CountActiveBlocks ∧
    ∀ k, (c.blocks k).length = (other.blocks k).length

end CCodeDataLog

/-- The block kind under which `LoadAsIs` files a record: it looks the name up
as the C string left in its zero-terminated buffer. -/
def recordType (r : List Byte × List Byte) : Option eCDLog_AddrType :=
  CCodeDataLog.addrTypeDict_find (cstr (r.1 ++ [0]))

/-- A record `LoadAsIs` can file: the name fits the 32-byte buffer, the length
fits four bytes, and the name is one of the eight block names. -/
def Loadable (r : List Byte × List Byte) : Prop :=
  r.1.length < 32 ∧ r.2.length < 2 ^ 32 ∧ ∃ k, recordType r = some k

/-- The container after the records have been filed in order. -/
def applyRecords (c : CCodeDataLog) : List (List Byte × List Byte) → CCodeDataLog
  | [] => c
  | r :: rs =>
    match recordType r with
    | some k => applyRecords (c.setBlock k r.2) rs
    | none => applyRecords c rs

/-- The start of a block record that cannot be read to its end: the name is cut
short, the name declares 32 bytes or more, the length field is cut short, or
the name is one of the eight block names and the data is cut short. -/
inductive BadRecord : List Byte → Prop
  | truncatedName (s t bad : List Byte) :
      s.length < 128 → t ≠ [] → lpString s = bad ++ t → BadRecord bad
  | longName (n : Nat) (rest bad : List Byte) :
      readLeb128 bad = some (n, rest) → 32 ≤ n → BadRecord bad
  | truncatedLength (s g : List Byte) :
      s.length < 32 → g.length < 4 → BadRecord (lpString s ++ g)
  | truncatedData (s d : List Byte) (n : Nat) (k : eCDLog_AddrType) :
      s.length < 32 → recordType (s, d) = some k → n < 2 ^ 32 → d.length < n →
      BadRecord (lpString s ++ WRITE_DWORD n ++ d)

/-- A file that is not well formed: the first string is not the format marker,
the second is not the platform tag, the count is cut short, or, the count being
below `maxCount`, fewer than that many loadable records are followed by one
that cannot be read to its end. -/
inductive Malformed (maxCount : Nat) : List Byte → Prop
  | magic (f : List Byte) :
      (¬ ∃ g, readLeb128 f = some (13, cbytes "BIZHAWK-CDL-2" ++ g)) → Malformed maxCount f
  | platform (f g : List Byte) :
      readLeb128 f = some (13, cbytes "BIZHAWK-CDL-2" ++ g) →
      (¬ ∃ h, readLeb128 g = some (15, cbytes "SNES           " ++ h)) → Malformed maxCount f
  | count (g : List Byte) :
      g.length < 4 → Malformed maxCount (fileHeader ++ g)
  | record (n : Nat) (rs : List (List Byte × List Byte)) (bad : List Byte) :
      n < maxCount → rs.length < n → (∀ r ∈ rs, Loadable r) → BadRecord bad →
      Malformed maxCount (fileHeader ++ WRITE_DWORD n ++ encodeRecords rs ++ bad)

/-! ## Concrete inputs -/

/-- A container with a one-byte CARTROM block. -/
def oneByteLog : CCodeDataLog := CCodeDataLog.ctor.setBlock 0 [5]

/-- A file with one CARTROM record of two bytes. -/
def twoByteFile : List Byte := encodeFile [(cbytes "CARTROM", [3, 4])]

/-- A file with one CARTROM record of one byte. -/
def cartromFile : List Byte := encodeFile [(cbytes "CARTROM", [3])]

/-- A record named FUTURE_BLOCK with ten zero bytes of data, followed by a
CARTROM record of two bytes. -/
def futureBlockFile : List Byte :=
  encodeFile [(cbytes "FUTURE_BLOCK", List.replicate 10 0), (cbytes "CARTROM", [1, 2])]

/-- A layout with a two-byte ROM and no save RAM. -/
def smallLayout : CMemory := ⟨2, 0⟩

/-- A container sized for `smallLayout` with two flag bytes set in CARTROM. -/
def smallLog : CCodeDataLog :=
  (CCodeDataLog.ctor.New smallLayout).setBlock 0 [0x01, 0x21]

/-- A container with a CARTROM and a WRAM block. -/
def twoBlockLog : CCodeDataLog := (CCodeDataLog.ctor.setBlock 0 [1, 2]).setBlock 2 [3]

/-- A file whose count field is 0x80000080 (the bytes 80 00 00 80) and whose
first record is cut short inside its name. -/
def signedCountFile : List Byte :=
  fileHeader ++ WRITE_DWORD 0x80000080 ++ encodeRecords [] ++ [7, 67, 65]

/-- A file that declares two records: a complete WRAM record of three bytes, then
a CARTROM record that declares four bytes and holds one. -/
def truncatedDataFile : List Byte :=
  fileHeader ++ WRITE_DWORD 2 ++ encodeRecords [(cbytes "WRAM", [1, 2, 3])] ++
    (lpString (cbytes "CARTROM") ++ WRITE_DWORD 4 ++ [9])

/-! ## LEB128, as the spec lays it out -/

/-- The bytes the loop of `writeLeb128` puts out in at most `rounds` rounds: the
low seven bits of the value, with the high bit set while bits remain. -/
def lebBytes : Nat → Nat → List Byte
  | 0, _ => []
  | rounds + 1, value =>
    if value >>> 7 ≠ 0 then
      Fin.ofNat ((value &&& 0x7f) ||| 0x80) :: lebBytes rounds (value >>> 7)
    else [Fin.ofNat (value &&& 0x7f)]

/-- The value of a sequence of seven-bit groups, least significant first. -/
def lebValue : List Byte → Nat
  | [] => 0
  | c :: rest => (c.val &&& 0x7f) + 128 * lebValue rest

/-- The number of bytes of the canonical LEB128 form: one for zero, else the bit
length divided by seven, rounded up. -/
def lebLength (v : Nat) : Nat :=
  if v = 0 then 1 else (Nat.size v + 6) / 7

/-- Byte `i` of the canonical LEB128 form of `v` in `n` bytes: seven bits of the
value, the high bit set on all bytes but the last. -/
def lebByte (v n i : Nat) : Byte :=
  Fin.ofNat (((v >>> (7 * i)) &&& 0x7f) ||| (if i + 1 < n then 0x80 else 0))

/-! ## More concrete inputs -/

/-- The layout of the example of the spec: ROM size 0x8000, no save RAM. -/
def exampleLayout : CMemory := ⟨0x8000, 0⟩

/-- A file with one SGB_WRAM record of two bytes. -/
def sgbFile : List Byte := encodeFile [(cbytes "SGB_WRAM", [1, 2])]

/-- The container an earlier `LoadAsIs` of `sgbFile` leaves. -/
def sgbLog : CCodeDataLog := (CCodeDataLog.LoadAsIs CCodeDataLog.ctor (some sgbFile)).2

/-- A file with one WRAM record of one byte. -/
def wramFile : List Byte := encodeFile [(cbytes "WRAM", [7])]

/-! ## Bytes -/

theorem Byte.val_or (a b : Byte) : (a ||| b).val = a.val ||| b.val := by
  show (a.val ||| b.val) % 256 = _
  exact Nat.mod_eq_of_lt (Nat.or_lt_two_pow (n := 8) a.isLt b.isLt)

theorem Byte.val_and (a b : Byte) : (a &&& b).val = a.val &&& b.val := by
  show (a.val &&& b.val) % 256 = _
  exact Nat.mod_eq_of_lt (lt_of_le_of_lt Nat.and_le_left a.isLt)

theorem Byte.or_or_self (a b : Byte) : (a ||| b) ||| b = a ||| b := by
  apply Fin.ext
  rw [Byte.val_or, Byte.val_or, Nat.or_assoc, Nat.or_self]

theorem Byte.and_or_self (a b : Byte) : a &&& (a ||| b) = a := by
  apply Fin.ext
  rw [Byte.val_and, Byte.val_or]
  apply Nat.eq_of_testBit_eq
  intro i
  simp only [Nat.testBit_and, Nat.testBit_or]
  cases a.val.testBit i <;> simp

theorem Byte.zero_or (a : Byte) : (0 : Byte) ||| a = a := by
  apply Fin.ext
  rw [Byte.val_or]
  simp

namespace CCodeDataLog

/-! ## `Set` -/

theorem ext_blocks (c d : CCodeDataLog) (hb : ∀ k, c.blocks k = d.blocks k)
    (ha : c.active = d.active) : c = d := by
  cases c with
  | mk cb ca =>
    cases d with
    | mk db da =>
      have h1 : cb = db := funext hb
      simp only at ha
      rw [h1, ha]

theorem Set_eq_of_lt (c : CCodeDataLog) (k : eCDLog_AddrType) (f : Byte) (a : Nat)
    (hact : c.active = true) (ha : a < (c.blocks k).length) :
    c.Set k f a = some (c.setBlock k ((c.blocks k).set a ((c.blocks k)[a] ||| f))) := by
  unfold Set
  have h2 : ¬ (a ≥ (c.blocks k).length) := Nat.not_le.mpr ha
  simp [hact, h2, List.getElem?_eq_getElem ha]

theorem Set_eq_of_inactive (c : CCodeDataLog) (k : eCDLog_AddrType) (f : Byte) (a : Nat)
    (hact : c.active = false) : c.Set k f a = some c := by
  unfold Set
  simp [hact]

theorem Set_eq_of_ge (c : CCodeDataLog) (k : eCDLog_AddrType) (f : Byte) (a : Nat)
    (ha : (c.blocks k).length ≤ a) : c.Set k f a = some c := by
  unfold Set
  by_cases hact : c.active = true
  · simp [hact, ha]
  · simp [hact]

/-- C8. `Set` never reads or writes outside a block: for every container, block
kind, flag value and address it returns a container (the checked element access
never fails); and when the container is inactive or the address is at least the
length of the block, the container it returns is the one it was given. -/
theorem Set_bounds_safety (c : CCodeDataLog) (k : eCDLog_AddrType) (f : Byte) (a : Nat) :
    (∃ d, c.Set k f a = some d) ∧
      ((c.active = false ∨ (c.blocks k).length ≤ a) → c.Set k f a = some c) := by
  constructor
  · by_cases hact : c.active = true
    · by_cases ha : a < (c.blocks k).length
      · exact ⟨_, Set_eq_of_lt c k f a hact ha⟩
      · exact ⟨c, Set_eq_of_ge c k f a (Nat.le_of_not_lt ha)⟩
    · exact ⟨c, Set_eq_of_inactive c k f a (by simpa using hact)⟩
  · intro h
    rcases h with h | h
    · exact Set_eq_of_inactive c k f a h
    · exact Set_eq_of_ge c k f a h

/-- Witness of C8: an address past the end of a three-byte block. -/
theorem Set_bounds_safety_witness :
    ((ctor.setBlock 2 [1, 2, 3]).active = false ∨
        ((ctor.setBlock 2 [1, 2, 3]).blocks 2).length ≤ 3) ∧
      (ctor.setBlock 2 [1, 2, 3]).Set 2 0x10 3 = some (ctor.setBlock 2 [1, 2, 3]) :=
  ⟨by decide, (Set_bounds_safety (ctor.setBlock 2 [1, 2, 3]) 2 0x10 3).2 (by decide)⟩

/-- C9. On an active container and an address inside block `k`, `Set` returns a
container in which the byte at that address is its old value OR the flag (so
the old value AND the new one is the old one), every other byte of every
block, every block length and the active flag being what they were. -/
theorem Set_accumulates (c : CCodeDataLog) (k : eCDLog_AddrType) (f : Byte) (a : Nat)
    (hact : c.active = true) (ha : a < (c.blocks k).length) :
    ∃ d old, c.Set k f a = some d ∧ (c.blocks k)[a]? = some old ∧
      (d.blocks k)[a]? = some (old ||| f) ∧ old &&& (old ||| f) = old ∧
      (∀ j b, (j ≠ k ∨ b ≠ a) → (d.blocks j)[b]? = (c.blocks j)[b]?) ∧
      (∀ j, (d.blocks j).length = (c.blocks j).length) ∧ d.active = c.active := by
  refine ⟨_, (c.blocks k)[a], Set_eq_of_lt c k f a hact ha, List.getElem?_eq_getElem ha, ?_,
    Byte.and_or_self _ _, ?_, ?_, rfl⟩
  · simp [setBlock, ha]
  · intro j b h
    by_cases hj : j = k
    · subst hj
      have hb : a ≠ b := by
        rcases h with h | h
        · exact absurd rfl h
        · exact fun e => h e.symm
      simp [setBlock, List.getElem?_set_ne hb]
    · simp [setBlock, hj]
  · intro j
    by_cases hj : j = k
    · subst hj
      simp [setBlock]
    · simp [setBlock, hj]

/-- Witness of C9: flag 0x10 set on the byte 0x01 at address 1 of a WRAM block. -/
theorem Set_accumulates_witness :
    (ctor.setBlock 2 [1, 1, 1]).active = true ∧ 1 < ((ctor.setBlock 2 [1, 1, 1]).blocks 2).length ∧
      ∃ d old, (ctor.setBlock 2 [1, 1, 1]).Set 2 0x10 1 = some d ∧
        ((ctor.setBlock 2 [1, 1, 1]).blocks 2)[1]? = some old ∧
        (d.blocks 2)[1]? = some (old ||| 0x10) ∧ old &&& (old ||| 0x10) = old ∧
        (∀ j b, (j ≠ 2 ∨ b ≠ 1) → (d.blocks j)[b]? = ((ctor.setBlock 2 [1, 1, 1]).blocks j)[b]?) ∧
        (∀ j, (d.blocks j).length = ((ctor.setBlock 2 [1, 1, 1]).blocks j).length) ∧
        d.active = (ctor.setBlock 2 [1, 1, 1]).active :=
  ⟨by decide, by decide, Set_accumulates (ctor.setBlock 2 [1, 1, 1]) 2 0x10 1 (by decide) (by decide)⟩

end CCodeDataLog

namespace CCodeDataLog

/-! ## `Load` -/

theorem mem_addrTypes : ∀ k : eCDLog_AddrType, k ∈ addrTypes := by decide

theorem any_addrTypes (p : eCDLog_AddrType → Bool) :
    addrTypes.any p = true ↔ ∃ k, p k = true := by
  constructor
  · intro h
    rcases List.any_eq_true.mp h with ⟨k, _, hk⟩
    exact ⟨k, hk⟩
  · rintro ⟨k, hk⟩
    exact List.any_eq_true.mpr ⟨k, mem_addrTypes k, hk⟩

theorem Load_unfold (c : CCodeDataLog) (file : Option InStream) :
    c.Load file =
      if (LoadAsIs ctor file).1 = false then (false, c)
      else if c.CountActiveBlocks ≠ (LoadAsIs ctor file).2.CountActiveBlocks then (false, c)
      else if addrTypes.any (fun i =>
          decide ((c.blocks i).length ≠ ((LoadAsIs ctor file).2.blocks i).length)) = true then
        (false, c)
      else
        (true, ⟨fun i => if c.blocks i = [] then c.blocks i
          else mergeBlock (c.blocks i) ((LoadAsIs ctor file).2.blocks i), c.active⟩) := by
  unfold Load
  rcases LoadAsIs ctor file with ⟨ok, other⟩
  cases ok <;> rfl

theorem Load_eq_of_fail (c : CCodeDataLog) (file : Option InStream)
    (h : (LoadAsIs ctor file).1 = false) : c.Load file = (false, c) := by
  rw [Load_unfold, if_pos h]

theorem Load_eq_of_reject (c : CCodeDataLog) (file : Option InStream)
    (h : ¬ loadAccepts c (LoadAsIs ctor file).2) : c.Load file = (false, c) := by
  rw [Load_unfold]
  by_cases hok : (LoadAsIs ctor file).1 = true
  · by_cases hc : c.CountActiveBlocks = (LoadAsIs ctor file).2.CountActiveBlocks
    · have hl : ∃ k, (c.blocks k).length ≠ ((LoadAsIs ctor file).2.blocks k).length := by
        by_contra hn
        push_neg at hn
        exact h ⟨hc, hn⟩
      have hany : addrTypes.any (fun i =>
          decide ((c.blocks i).length ≠ ((LoadAsIs ctor file).2.blocks i).length)) = true := by
        rw [any_addrTypes]
        rcases hl with ⟨k, hk⟩
        exact ⟨k, by simpa using hk⟩
      rw [if_neg (by simp [hok]), if_neg (not_not.mpr hc), if_pos hany]
    · simp [hok, hc]
  · simp [hok]

theorem Load_eq_of_accept (c : CCodeDataLog) (file : Option InStream)
    (hok : (LoadAsIs ctor file).1 = true) (h : loadAccepts c (LoadAsIs ctor file).2) :
    c.Load file = (true, ⟨fun i => if c.blocks i = [] then c.blocks i
      else mergeBlock (c.blocks i) ((LoadAsIs ctor file).2.blocks i), c.active⟩) := by
  rw [Load_unfold]
  have hany : addrTypes.any (fun i =>
      decide ((c.blocks i).length ≠ ((LoadAsIs ctor file).2.blocks i).length)) = false := by
    rw [Bool.eq_false_iff]
    intro hc
    rw [any_addrTypes] at hc
    rcases hc with ⟨k, hk⟩
    exact (of_decide_eq_true hk) (h.2 k)
  rw [if_neg (by simp [hok]), if_neg (not_not.mpr h.1), if_neg (by rw [hany]; exact Bool.false_ne_true)]

theorem mergeBlock_length (b o : List Byte) (h : b.length = o.length) :
    (mergeBlock b o).length = b.length := by
  simp [mergeBlock, h]

theorem mergeBlock_getElem? (b o : List Byte) (a : Nat) (x y : Byte)
    (hx : b[a]? = some x) (hy : o[a]? = some y) : (mergeBlock b o)[a]? = some (x ||| y) := by
  simp [mergeBlock, List.getElem?_zipWith, hx, hy]

theorem mergeBlock_idem (b o : List Byte) : mergeBlock (mergeBlock b o) o = mergeBlock b o := by
  induction b generalizing o with
  | nil => simp [mergeBlock]
  | cons x xs ih =>
    cases o with
    | nil => simp [mergeBlock]
    | cons y ys =>
      have := ih ys
      simp only [mergeBlock, List.zipWith_cons_cons] at this ⊢
      rw [this, Byte.or_or_self]

theorem mergeBlock_zero (n : Nat) (o : List Byte) (h : o.length = n) :
    mergeBlock (List.replicate n 0) o = o := by
  induction n generalizing o with
  | zero =>
    have : o = [] := List.length_eq_zero.mp h
    simp [mergeBlock, this]
  | succ n ih =>
    cases o with
    | nil => simp at h
    | cons y ys =>
      have := ih ys (by simpa using h)
      simp only [mergeBlock, List.replicate_succ, List.zipWith_cons_cons] at this ⊢
      rw [this, Byte.zero_or]

theorem countActive_congr (c d : CCodeDataLog)
    (h : ∀ k, (c.blocks k).length = (d.blocks k).length) :
    c.CountActiveBlocks = d.CountActiveBlocks := by
  unfold CountActiveBlocks
  congr 1
  funext i
  have := h i
  by_cases hc : c.blocks i = []
  · have hd : d.blocks i = [] := by
      apply List.length_eq_zero.mp
      rw [← this, hc]
      rfl
    simp [hc, hd]
  · have hd : d.blocks i ≠ [] := by
      intro e
      apply hc
      apply List.length_eq_zero.mp
      rw [this, e]
      rfl
    simp [hc, hd]

/-- The blocks after an accepted `Load`, one block at a time. -/
theorem merged_block_length (c other : CCodeDataLog) (k : eCDLog_AddrType)
    (h : (c.blocks k).length = (other.blocks k).length) :
    (if c.blocks k = [] then c.blocks k
      else mergeBlock (c.blocks k) (other.blocks k)).length = (c.blocks k).length := by
  split
  · rfl
  · exact mergeBlock_length _ _ h

end CCodeDataLog

namespace CCodeDataLog

theorem Load_cases (c : CCodeDataLog) (file : Option InStream) :
    (c.Load file = (false, c) ∧
        ¬ ((LoadAsIs ctor file).1 = true ∧ loadAccepts c (LoadAsIs ctor file).2)) ∨
      (c.Load file = (true, ⟨fun i => if c.blocks i = [] then c.blocks i
          else mergeBlock (c.blocks i) ((LoadAsIs ctor file).2.blocks i), c.active⟩) ∧
        (LoadAsIs ctor file).1 = true ∧ loadAccepts c (LoadAsIs ctor file).2) := by
  by_cases hok : (LoadAsIs ctor file).1 = true
  · by_cases hacc : loadAccepts c (LoadAsIs ctor file).2
    · exact Or.inr ⟨Load_eq_of_accept c file hok hacc, hok, hacc⟩
    · exact Or.inl ⟨Load_eq_of_reject c file hacc, fun h => hacc h.2⟩
  · exact Or.inl ⟨Load_eq_of_fail c file (by simpa using hok), fun h => hok h.1⟩

theorem merged_block_getElem? (c other : CCodeDataLog) (k : eCDLog_AddrType) (a : Nat)
    (hl : (c.blocks k).length = (other.blocks k).length) (ha : a < (c.blocks k).length) :
    ∃ x y, (c.blocks k)[a]? = some x ∧ (other.blocks k)[a]? = some y ∧
      (if c.blocks k = [] then c.blocks k
        else mergeBlock (c.blocks k) (other.blocks k))[a]? = some (x ||| y) := by
  have hne : c.blocks k ≠ [] := by
    intro e
    rw [e] at ha
    exact Nat.not_lt_zero _ ha
  have hx : (c.blocks k)[a]? = some (c.blocks k)[a] := List.getElem?_eq_getElem ha
  have ha2 : a < (other.blocks k).length := hl ▸ ha
  have hy : (other.blocks k)[a]? = some (other.blocks k)[a] := List.getElem?_eq_getElem ha2
  refine ⟨_, _, hx, hy, ?_⟩
  rw [if_neg hne]
  exact mergeBlock_getElem? _ _ a _ _ hx hy

theorem merged_block_idem (b o : List Byte) :
    (if (if b = [] then b else mergeBlock b o) = [] then (if b = [] then b else mergeBlock b o)
      else mergeBlock (if b = [] then b else mergeBlock b o) o) =
      if b = [] then b else mergeBlock b o := by
  by_cases hb : b = []
  · simp [hb]
  · rw [if_neg hb]
    split
    · rfl
    · exact mergeBlock_idem b o

/-- C5. `Load` returns `true` exactly when `LoadAsIs` into a newly constructed
container succeeds, `CountActiveBlocks` agrees between the current container and
that scratch container, and each of the eight blocks has the same length in
both; and when it returns `true` every block keeps its length and each byte is
the old byte OR the scratch byte at the same kind and address. -/
theorem Load_merge_result (c : CCodeDataLog) (file : Option InStream) :
    ((c.Load file).1 = true ↔
        ((LoadAsIs ctor file).1 = true ∧
          c.CountActiveBlocks = (LoadAsIs ctor file).2.CountActiveBlocks ∧
          ∀ k, (c.blocks k).length = ((LoadAsIs ctor file).2.blocks k).length)) ∧
      ((c.Load file).1 = true →
        ∀ k, ((c.Load file).2.blocks k).length = (c.blocks k).length ∧
          ∀ a, a < (c.blocks k).length →
            ∃ x y, (c.blocks k)[a]? = some x ∧ ((LoadAsIs ctor file).2.blocks k)[a]? = some y ∧
              ((c.Load file).2.blocks k)[a]? = some (x ||| y)) := by
  rcases Load_cases c file with ⟨he, hn⟩ | ⟨he, hok, hacc⟩
  · constructor
    · constructor
      · intro h
        rw [he] at h
        exact absurd h Bool.false_ne_true
      · intro h
        exact absurd h hn
    · intro h
      rw [he] at h
      exact absurd h Bool.false_ne_true
  · refine ⟨⟨fun _ => ⟨hok, hacc⟩, fun _ => by rw [he]⟩, fun _ k => ?_⟩
    rw [he]
    exact ⟨merged_block_length c _ k (hacc.2 k),
      fun a ha => merged_block_getElem? c _ k a (hacc.2 k) ha⟩

/-- C6. Whatever `Load` returns, an address that was inside block `k` before the
call is inside it after the call, and the byte there keeps every bit it had
(old AND new = old). -/
theorem Load_monotone (c : CCodeDataLog) (file : Option InStream) (k : eCDLog_AddrType)
    (a : Nat) (ha : a < (c.blocks k).length) :
    a < ((c.Load file).2.blocks k).length ∧
      ∃ x y, (c.blocks k)[a]? = some x ∧ ((c.Load file).2.blocks k)[a]? = some y ∧
        x &&& y = x := by
  rcases Load_cases c file with ⟨he, _⟩ | ⟨he, _, hacc⟩
  · rw [he]
    refine ⟨ha, (c.blocks k)[a], (c.blocks k)[a], List.getElem?_eq_getElem ha,
      List.getElem?_eq_getElem ha, ?_⟩
    apply Fin.ext
    rw [Byte.val_and, Nat.and_self]
  · rw [he]
    refine ⟨?_, ?_⟩
    · show a < (if c.blocks k = [] then c.blocks k
        else mergeBlock (c.blocks k) ((LoadAsIs ctor file).2.blocks k)).length
      rw [merged_block_length c _ k (hacc.2 k)]
      exact ha
    · rcases merged_block_getElem? c _ k a (hacc.2 k) ha with ⟨x, y, hx, _, hm⟩
      exact ⟨x, x ||| y, hx, hm, Byte.and_or_self x y⟩

/-- C7. Calling `Load` a second time with the same file returns what the first
call returned and leaves the container as the first call left it. -/
theorem Load_idempotent (c : CCodeDataLog) (file : Option InStream) :
    ((c.Load file).2.Load file).1 = (c.Load file).1 ∧
      ((c.Load file).2.Load file).2 = (c.Load file).2 := by
  rcases Load_cases c file with ⟨he, _⟩ | ⟨he, hok, hacc⟩
  · rw [he]
    show (c.Load file).1 = false ∧ (c.Load file).2 = c
    rw [he]
    exact ⟨rfl, rfl⟩
  · rw [he]
    have hlen : ∀ k, ((⟨fun i => if c.blocks i = [] then c.blocks i
        else mergeBlock (c.blocks i) ((LoadAsIs ctor file).2.blocks i), c.active⟩ :
          CCodeDataLog).blocks k).length = ((LoadAsIs ctor file).2.blocks k).length := by
      intro k
      show (if c.blocks k = [] then c.blocks k
        else mergeBlock (c.blocks k) ((LoadAsIs ctor file).2.blocks k)).length = _
      rw [merged_block_length c _ k (hacc.2 k)]
      exact hacc.2 k
    have hacc2 : loadAccepts (⟨fun i => if c.blocks i = [] then c.blocks i
        else mergeBlock (c.blocks i) ((LoadAsIs ctor file).2.blocks i), c.active⟩ :
          CCodeDataLog) (LoadAsIs ctor file).2 :=
      ⟨countActive_congr _ _ hlen, hlen⟩
    rw [Load_eq_of_accept _ file hok hacc2]
    refine ⟨rfl, ?_⟩
    apply ext_blocks
    · intro k
      exact merged_block_idem (c.blocks k) ((LoadAsIs ctor file).2.blocks k)
    · rfl

/-- Witness of C6: a one-byte CARTROM block and a path that cannot be opened. -/
theorem Load_monotone_witness :
    0 < ((ctor.setBlock 0 [5]).blocks 0).length ∧
      (0 < (((ctor.setBlock 0 [5]).Load none).2.blocks 0).length ∧
        ∃ x y, ((ctor.setBlock 0 [5]).blocks 0)[0]? = some x ∧
          (((ctor.setBlock 0 [5]).Load none).2.blocks 0)[0]? = some y ∧ x &&& y = x) :=
  ⟨by decide, Load_monotone (ctor.setBlock 0 [5]) none 0 0 (by decide)⟩

end CCodeDataLog

/-! ## Writers as byte strings -/

theorem small_bits : ∀ n : Fin 128,
    n.val &&& 0x7f = n.val ∧ n.val &&& 0x80 = 0 ∧ n.val >>> 7 = 0 := by decide

theorem fputc_eq_fwrite (c : Byte) (fp : OutStream) : fputc c fp = fwrite [c] fp := by
  unfold fputc fwrite
  by_cases h : fp.room = 0
  · simp [h]
  · have : ¬ fp.room < 1 := by omega
    simp [h, this]

theorem fwrite_append (a b : List Byte) (fp : OutStream) :
    fwrite (a ++ b) fp = (fwrite a fp).bind (fwrite b) := by
  unfold fwrite
  rw [List.length_append]
  by_cases h1 : fp.room < a.length
  · have h2 : fp.room < a.length + b.length := by omega
    simp [h1, h2]
  · by_cases h2 : fp.room - a.length < b.length
    · have h3 : fp.room < a.length + b.length := by omega
      simp [h1, h2, h3]
    · have h3 : ¬ fp.room < a.length + b.length := by omega
      simp [h1, h2, h3, Nat.sub_sub]

theorem writeLeb128_small (fp : OutStream) (n : Nat) (h : n < 128) :
    writeLeb128 fp n = fwrite [Fin.ofNat n] fp := by
  have hb := small_bits ⟨n, h⟩
  simp only at hb
  have hm : n % 2 ^ 32 = n := Nat.mod_eq_of_lt (by omega)
  unfold writeLeb128
  rw [hm]
  unfold writeLeb128Loop
  simp only [hb.1, hb.2.2, ne_eq, not_true_eq_false, if_false]
  rw [fputc_eq_fwrite]
  cases fwrite [Fin.ofNat n] fp <;> rfl

theorem writeString_eq (fp : OutStream) (s : List Byte) (h : s.length < 128) :
    writeString fp s = fwrite (lpString s) fp := by
  unfold writeString lpString
  rw [writeLeb128_small fp _ h,
    show (Fin.ofNat s.length :: s : List Byte) = [Fin.ofNat s.length] ++ s from rfl,
    fwrite_append]
  cases fwrite [Fin.ofNat s.length] fp <;> rfl

theorem WRITE_DWORD_mod (v : Nat) : WRITE_DWORD (v % 2 ^ 32) = WRITE_DWORD v := by
  unfold WRITE_DWORD
  have e : ∀ a : Nat, (Fin.ofNat a : Byte) = Fin.ofNat (a % 256) := by
    intro a
    apply Fin.ext
    show a % 256 = a % 256 % 256
    omega
  rw [e (v % 2 ^ 32 / 2 ^ 24), e (v % 2 ^ 32 / 2 ^ 16), e (v % 2 ^ 32 / 2 ^ 8), e (v % 2 ^ 32),
    e (v / 2 ^ 24), e (v / 2 ^ 16), e (v / 2 ^ 8), e v]
  have h1 : v % 2 ^ 32 / 2 ^ 24 % 256 = v / 2 ^ 24 % 256 := by omega
  have h2 : v % 2 ^ 32 / 2 ^ 16 % 256 = v / 2 ^ 16 % 256 := by omega
  have h3 : v % 2 ^ 32 / 2 ^ 8 % 256 = v / 2 ^ 8 % 256 := by omega
  have h4 : v % 2 ^ 32 % 256 = v % 256 := by omega
  rw [h1, h2, h3, h4]

theorem writeInt_eq (fp : OutStream) (v : Nat) : writeInt fp v = fwrite (WRITE_DWORD v) fp := by
  unfold writeInt
  rw [WRITE_DWORD_mod]

namespace CCodeDataLog

theorem kBlockNames_length : ∀ i : eCDLog_AddrType, (kBlockNames i).length < 32 := by decide

theorem saveBlocks_eq (c : CCodeDataLog) (types : List eCDLog_AddrType) (fp : OutStream) :
    saveBlocks c types fp = fwrite (encodeRecords (c.blockRecords types)) fp := by
  induction types generalizing fp with
  | nil =>
    unfold saveBlocks fwrite
    simp [encodeRecords, blockRecords]
  | cons i rest ih =>
    unfold saveBlocks
    by_cases hi : c.blocks i = []
    · rw [if_pos hi, ih]
      simp [blockRecords, hi]
    · rw [if_neg hi]
      have hn : (kBlockNames i).length < 128 := lt_trans (kBlockNames_length i) (by decide)
      have e : encodeRecords (c.blockRecords (i :: rest)) =
          lpString (kBlockNames i) ++ (WRITE_DWORD (c.blocks i).length ++
            (c.blocks i ++ encodeRecords (c.blockRecords rest))) := by
        simp [blockRecords, hi, encodeRecords, encodeRecord]
      rw [e, fwrite_append, writeString_eq _ _ hn]
      cases fwrite (lpString (kBlockNames i)) fp with
      | none => rfl
      | some fp1 =>
        show (match writeInt fp1 (c.blocks i).length with
          | none => none
          | some fp =>
            match fwrite (c.blocks i) fp with
            | none => none
            | some fp => c.saveBlocks rest fp) = fwrite _ fp1
        rw [fwrite_append, writeInt_eq]
        cases fwrite (WRITE_DWORD (c.blocks i).length) fp1 with
        | none => rfl
        | some fp2 =>
          show (match fwrite (c.blocks i) fp2 with
            | none => none
            | some fp => c.saveBlocks rest fp) = fwrite _ fp2
          rw [fwrite_append]
          cases fwrite (c.blocks i) fp2 with
          | none => rfl
          | some fp3 => exact ih fp3

theorem CountActiveBlocks_eq (c : CCodeDataLog) :
    c.CountActiveBlocks = (c.blockRecords addrTypes).length := by
  unfold CountActiveBlocks blockRecords
  rw [List.length_map, List.countP_eq_length_filter]

theorem Save_eq (c : CCodeDataLog) (room : Nat) :
    c.Save (some room) =
      if (encodeFile (c.blockRecords addrTypes)).length ≤ room then
        some (encodeFile (c.blockRecords addrTypes))
      else none := by
  have hm : (cbytes "BIZHAWK-CDL-2").length < 128 := by decide
  have hp : (cbytes "SNES           ").length < 128 := by decide
  have key : c.Save (some room) =
      (fwrite (encodeFile (c.blockRecords addrTypes)) ⟨room, []⟩).map (fun fp => fp.data) := by
    unfold Save encodeFile fileHeader
    simp only [writeString_eq _ _ hm]
    rw [List.append_assoc, List.append_assoc, fwrite_append]
    cases fwrite (lpString (cbytes "BIZHAWK-CDL-2")) ⟨room, []⟩ with
    | none => rfl
    | some fp1 =>
      show (match writeString fp1 (cbytes "SNES           ") with
        | none => none
        | some fp =>
          match writeInt fp c.CountActiveBlocks with
          | none => none
          | some fp =>
            match c.saveBlocks addrTypes fp with
            | none => none
            | some fp => some fp.data) = Option.map (fun fp => fp.data) (fwrite _ fp1)
      rw [fwrite_append, writeString_eq _ _ hp]
      cases fwrite (lpString (cbytes "SNES           ")) fp1 with
      | none => rfl
      | some fp2 =>
        show (match writeInt fp2 c.CountActiveBlocks with
          | none => none
          | some fp =>
            match c.saveBlocks addrTypes fp with
            | none => none
            | some fp => some fp.data) = Option.map (fun fp => fp.data) (fwrite _ fp2)
        rw [fwrite_append, writeInt_eq, CountActiveBlocks_eq]
        cases fwrite (WRITE_DWORD (c.blockRecords addrTypes).length) fp2 with
        | none => rfl
        | some fp3 =>
          show (match c.saveBlocks addrTypes fp3 with
            | none => none
            | some fp => some fp.data) = Option.map (fun fp => fp.data) (fwrite _ fp3)
          rw [saveBlocks_eq]
          cases fwrite (encodeRecords (c.blockRecords addrTypes)) fp3 <;> rfl
  rw [key]
  unfold fwrite
  by_cases h : (encodeFile (c.blockRecords addrTypes)).length ≤ room
  · have : ¬ room < (encodeFile (c.blockRecords addrTypes)).length := by omega
    simp [h, this]
  · have : room < (encodeFile (c.blockRecords addrTypes)).length := by omega
    simp [h, this]

end CCodeDataLog

/-! ## Readers on written bytes -/

theorem readLeb128_small (n : Nat) (h : n < 128) (rest : InStream) :
    readLeb128 (Fin.ofNat n :: rest) = some (n, rest) := by
  have hb := small_bits ⟨n, h⟩
  simp only at hb
  have hv : (Fin.ofNat n : Byte).val = n := Nat.mod_eq_of_lt (by omega)
  unfold readLeb128 readLeb128Loop
  simp only [hv, hb.1, hb.2.1, if_true, Nat.shiftLeft_zero, Nat.zero_or]
  rw [Nat.mod_eq_of_lt (by omega)]

theorem fread_exact (buf d rest : List Byte) (hb : buf.length = d.length) :
    fread buf d.length (d ++ rest) = (d.length, d, rest) := by
  unfold fread
  simp [hb]

theorem fread_short (buf : List Byte) (n : Nat) (fp : InStream) (h : fp.length < n) :
    (fread buf n fp).1 ≠ n := by
  unfold fread
  simp only [List.length_take]
  omega

theorem expectString_lp (s rest : List Byte) (h : s.length < 128) :
    expectString (lpString s ++ rest) s = some rest := by
  unfold expectString lpString
  rw [List.cons_append, readLeb128_small _ h]
  simp only [ne_eq, not_true_eq_false, if_false]
  rw [fread_exact _ s rest (by simp)]
  simp

theorem readString_lp (s rest : List Byte) (capacity : Nat) (h : s.length < 128)
    (hc : s.length < capacity) :
    readString (lpString s ++ rest) capacity = some (s ++ [0], rest) := by
  unfold readString lpString
  rw [List.cons_append, readLeb128_small _ h]
  have : ¬ capacity ≤ s.length := by omega
  simp only [this, if_false]
  rw [fread_exact _ s rest (by simp)]
  simp

theorem readInt_WRITE_DWORD (v : Nat) (h : v < 2 ^ 32) (rest : InStream) :
    readInt (WRITE_DWORD v ++ rest) = some (v, rest) := by
  unfold WRITE_DWORD readInt READ_DWORD
  simp only [List.cons_append, List.nil_append]
  have e : ∀ a : Nat, (Fin.ofNat a : Byte).val = a % 256 := fun a => rfl
  simp only [e]
  have : v / 2 ^ 24 % 256 * 2 ^ 24 + v / 2 ^ 16 % 256 * 2 ^ 16 + v / 2 ^ 8 % 256 * 2 ^ 8 +
      v % 256 = v := by omega
  rw [this]

namespace CCodeDataLog

/-! ## `LoadAsIs` on well-formed records -/

theorem resize_length (v : List Byte) (n : Nat) : (resize v n).length = n := by
  unfold resize
  simp only [List.length_append, List.length_take, List.length_replicate]
  omega

theorem loadBlocks_record (n : Nat) (c : CCodeDataLog) (r : List Byte × List Byte)
    (k : eCDLog_AddrType) (t : InStream) (h1 : r.1.length < 32) (h2 : r.2.length < 2 ^ 32)
    (hk : recordType r = some k) :
    loadBlocks (n + 1) c (encodeRecord r ++ t) = loadBlocks n (c.setBlock k r.2) t := by
  unfold recordType at hk
  rw [loadBlocks]
  unfold encodeRecord
  rw [List.append_assoc, List.append_assoc, readString_lp _ _ 32 (by omega) h1]
  simp only
  rw [readInt_WRITE_DWORD _ h2]
  simp only [hk]
  rw [fread_exact _ r.2 t (resize_length _ _)]
  simp

theorem loadBlocks_records (rs : List (List Byte × List Byte)) (n : Nat) (c : CCodeDataLog)
    (t : InStream) (h : ∀ r ∈ rs, Loadable r) :
    loadBlocks (rs.length + n) c (encodeRecords rs ++ t) = loadBlocks n (applyRecords c rs) t := by
  induction rs generalizing c with
  | nil => simp [encodeRecords, applyRecords]
  | cons r rs ih =>
    obtain ⟨h1, h2, k, hk⟩ := h r (List.mem_cons_self _ _)
    have e : encodeRecords (r :: rs) ++ t = encodeRecord r ++ (encodeRecords rs ++ t) := by
      simp [encodeRecords]
    have e2 : (r :: rs).length + n = (rs.length + n) + 1 := by
      simp only [List.length_cons]
      omega
    rw [e, e2, loadBlocks_record _ _ _ k _ h1 h2 hk]
    rw [ih _ (fun x hx => h x (List.mem_cons_of_mem _ hx))]
    simp only [applyRecords, hk]

theorem LoadAsIs_header (c : CCodeDataLog) (count : Nat) (hc : count < 2 ^ 32) (t : InStream) :
    LoadAsIs c (some (fileHeader ++ WRITE_DWORD count ++ t)) =
      loadBlocks (loadRounds count) c.Close t := by
  unfold LoadAsIs fileHeader
  simp only
  rw [List.append_assoc, List.append_assoc, expectString_lp _ _ (by decide)]
  simp only
  rw [expectString_lp _ _ (by decide)]
  simp only
  rw [readInt_WRITE_DWORD _ hc]

theorem LoadAsIs_encodeFile (c : CCodeDataLog) (rs : List (List Byte × List Byte))
    (t : InStream) (hn : rs.length < 2 ^ 31) (h : ∀ r ∈ rs, Loadable r) :
    LoadAsIs c (some (encodeFile rs ++ t)) = (true, applyRecords c.Close rs) := by
  unfold encodeFile
  rw [List.append_assoc, LoadAsIs_header _ _ (by omega)]
  have : loadRounds rs.length = rs.length + 0 := by
    unfold loadRounds
    rw [if_pos hn, Nat.add_zero]
  rw [this, loadBlocks_records _ _ _ _ h]
  rfl

theorem recordType_kBlockNames : ∀ i : eCDLog_AddrType,
    addrTypeDict_find (cstr (kBlockNames i ++ [0])) = some i := by decide

theorem applyRecords_blockRecords (c d : CCodeDataLog) (types : List eCDLog_AddrType)
    (k : eCDLog_AddrType) :
    (applyRecords d (c.blockRecords types)).blocks k =
      if k ∈ types ∧ c.blocks k ≠ [] then c.blocks k else d.blocks k := by
  induction types generalizing d with
  | nil => simp [blockRecords, applyRecords]
  | cons i rest ih =>
    by_cases hi : c.blocks i = []
    · have e : c.blockRecords (i :: rest) = c.blockRecords rest := by
        simp [blockRecords, hi]
      rw [e, ih]
      by_cases hk : k = i
      · subst hk
        simp [hi]
      · simp [hk]
    · have e : c.blockRecords (i :: rest) = (kBlockNames i, c.blocks i) :: c.blockRecords rest := by
        simp [blockRecords, hi]
      have hr : recordType (kBlockNames i, c.blocks i) = some i := recordType_kBlockNames i
      rw [e]
      simp only [applyRecords, hr]
      rw [ih]
      by_cases hk : k = i
      · subst hk
        simp [hi, setBlock]
      · simp [hk, setBlock]

theorem applyRecords_active (d : CCodeDataLog) (rs : List (List Byte × List Byte)) :
    (applyRecords d rs).active = d.active := by
  induction rs generalizing d with
  | nil => rfl
  | cons r rs ih =>
    unfold applyRecords
    cases recordType r with
    | none => exact ih d
    | some k =>
      simp only
      rw [ih]
      rfl

theorem blockRecords_loadable (c : CCodeDataLog) (types : List eCDLog_AddrType)
    (hlen : ∀ k, (c.blocks k).length < 2 ^ 32) : ∀ r ∈ c.blockRecords types, Loadable r := by
  intro r hr
  unfold blockRecords at hr
  rcases List.mem_map.mp hr with ⟨i, _, rfl⟩
  exact ⟨kBlockNames_length i, hlen i, i, recordType_kBlockNames i⟩

theorem blockRecords_length_le (c : CCodeDataLog) :
    (c.blockRecords addrTypes).length ≤ 8 := by
  unfold blockRecords
  rw [List.length_map]
  exact List.length_filter_le _ _

/-- Reading with `LoadAsIs` the bytes that `Save` lays out restores the blocks. -/
theorem LoadAsIs_saved (c d : CCodeDataLog) (hlen : ∀ k, (c.blocks k).length < 2 ^ 32) :
    LoadAsIs d (some (encodeFile (c.blockRecords addrTypes))) = (true, ⟨c.blocks, d.active⟩) := by
  have h := LoadAsIs_encodeFile d (c.blockRecords addrTypes) []
    (lt_of_le_of_lt (blockRecords_length_le c) (by decide))
    (blockRecords_loadable c addrTypes hlen)
  rw [List.append_nil] at h
  rw [h]
  congr 1
  apply ext_blocks
  · intro k
    rw [applyRecords_blockRecords]
    by_cases hk : c.blocks k = []
    · simp [hk, Close]
    · simp [hk, mem_addrTypes]
  · rw [applyRecords_active]
    rfl

end CCodeDataLog

namespace CCodeDataLog

/-! ## `Save` then `Load` -/

theorem fillBlocks_blocks (c : CCodeDataLog) (k : eCDLog_AddrType) :
    (fillBlocks c).blocks k = List.replicate (c.blocks k).length 0 := by
  unfold fillBlocks
  simp only
  split
  · rfl
  · rename_i h
    rw [not_not] at h
    rw [h]
    rfl

theorem New_blocks_zero (d : CCodeDataLog) (memory : CMemory) (k : eCDLog_AddrType) :
    (d.New memory).blocks k = List.replicate ((d.New memory).blocks k).length 0 := by
  unfold New
  rw [fillBlocks_blocks, List.length_replicate]

theorem New_blocks_length (d : CCodeDataLog) (memory : CMemory) (k : eCDLog_AddrType) :
    ((d.New memory).blocks k).length =
      if k = eCDLog_AddrType_APURAM then 0x10000
      else if k = eCDLog_AddrType_WRAM then 0x20000
      else if k = eCDLog_AddrType_CARTRAM then
        (if memory.SRAMSize ≠ 0 then ((1 <<< (memory.SRAMSize + 3)) * 128) % 2 ^ 32 else 0)
      else if k = eCDLog_AddrType_CARTROM then memory.CalculatedSize % 2 ^ 32
      else (d.blocks k).length := by
  unfold New
  rw [fillBlocks_blocks, List.length_replicate]
  unfold sizeBlocks setBlock
  simp only
  split
  · exact resize_length _ _
  · split
    · exact resize_length _ _
    · split
      · exact resize_length _ _
      · split
        · exact resize_length _ _
        · rfl

theorem Save_some (c : CCodeDataLog) (dest : Option Nat) (f : List Byte)
    (h : c.Save dest = some f) : f = encodeFile (c.blockRecords addrTypes) := by
  cases dest with
  | none => simp [Save] at h
  | some room =>
    rw [Save_eq] at h
    split at h
    · exact (Option.some.inj h).symm
    · exact absurd h (by simp)

/-- C1. Round trip: for every layout, every container `d` sized by `New` for
it, and every container `c` whose eight blocks have the lengths of the blocks
of `d.New memory` (any bytes, each block shorter than 2^32): if `Save` on `c`
returns true having written the file `f`, then `Load` of `f` on `d.New memory`
returns true and leaves each of the eight blocks equal to the block of `c`. -/
theorem Save_Load_round_trip (memory : CMemory) (d c : CCodeDataLog) (dest : Option Nat)
    (f : List Byte)
    (hsize : ∀ k, (c.blocks k).length = ((d.New memory).blocks k).length)
    (hlen : ∀ k, (c.blocks k).length < 2 ^ 32)
    (hsave : c.Save dest = some f) :
    ((d.New memory).Load (some f)).1 = true ∧
      ∀ k, ((d.New memory).Load (some f)).2.blocks k = c.blocks k := by
  have hf := Save_some c dest f hsave
  have hl : LoadAsIs ctor (some f) = (true, ⟨c.blocks, ctor.active⟩) := by
    rw [hf]
    exact LoadAsIs_saved c ctor hlen
  have hok : (LoadAsIs ctor (some f)).1 = true := by rw [hl]
  have hs : ∀ k, ((d.New memory).blocks k).length = ((LoadAsIs ctor (some f)).2.blocks k).length := by
    intro k
    rw [hl]
    exact (hsize k).symm
  have hacc : loadAccepts (d.New memory) (LoadAsIs ctor (some f)).2 :=
    ⟨countActive_congr _ _ hs, hs⟩
  rw [Load_eq_of_accept _ _ hok hacc]
  refine ⟨rfl, fun k => ?_⟩
  show (if (d.New memory).blocks k = [] then (d.New memory).blocks k
    else mergeBlock ((d.New memory).blocks k) ((LoadAsIs ctor (some f)).2.blocks k)) = c.blocks k
  rw [hl]
  show (if (d.New memory).blocks k = [] then (d.New memory).blocks k
    else mergeBlock ((d.New memory).blocks k) (c.blocks k)) = c.blocks k
  split
  · rename_i h
    have : (c.blocks k).length = 0 := by rw [hsize k, h]; rfl
    rw [h, List.length_eq_zero.mp this]
  · rw [New_blocks_zero]
    exact mergeBlock_zero _ _ (hsize k)

theorem smallLog_size (k : eCDLog_AddrType) :
    (smallLog.blocks k).length = ((ctor.New smallLayout).blocks k).length := by
  unfold smallLog setBlock
  simp only
  split
  · rename_i h
    rw [h, New_blocks_length]
    decide
  · rfl

theorem New_ctor_length (memory : CMemory) (k : eCDLog_AddrType) :
    ((ctor.New memory).blocks k).length < 2 ^ 32 := by
  rw [New_blocks_length]
  split
  · decide
  · split
    · decide
    · split
      · split
        · exact Nat.mod_lt _ (by decide)
        · decide
      · split
        · exact Nat.mod_lt _ (by decide)
        · exact Nat.two_pow_pos 32

/-- Witness of C1: the two-byte ROM layout, a newly constructed container, and
a container with flags set in CARTROM saved to a device that takes the whole
file. -/
theorem Save_Load_round_trip_witness :
    (∀ k, (smallLog.blocks k).length = ((ctor.New smallLayout).blocks k).length) ∧
      (∀ k, (smallLog.blocks k).length < 2 ^ 32) ∧
      smallLog.Save (some (encodeFile (smallLog.blockRecords addrTypes)).length) =
        some (encodeFile (smallLog.blockRecords addrTypes)) ∧
      (((ctor.New smallLayout).Load (some (encodeFile (smallLog.blockRecords addrTypes)))).1 = true ∧
        ∀ k, ((ctor.New smallLayout).Load
          (some (encodeFile (smallLog.blockRecords addrTypes)))).2.blocks k = smallLog.blocks k) :=
  have h1 := smallLog_size
  have h2 : ∀ k, (smallLog.blocks k).length < 2 ^ 32 := fun k => by
    rw [h1 k]
    exact New_ctor_length smallLayout k
  have h3 : smallLog.Save (some (encodeFile (smallLog.blockRecords addrTypes)).length) =
      some (encodeFile (smallLog.blockRecords addrTypes)) := by
    rw [Save_eq, if_pos (le_refl _)]
  ⟨h1, h2, h3, Save_Load_round_trip smallLayout ctor smallLog _ _ h1 h2 h3⟩

/-- C10. When the device takes every byte (no write fails), `Save` returns true
and the file is exactly: byte 0x0D and the 13 bytes of "BIZHAWK-CDL-2", byte
0x0F and the 15 bytes of "SNES" with 11 spaces, the four-byte encoding of
`CountActiveBlocks`, then, for the block kinds with a non-empty block and only
those, in index order, the length byte and bytes of the fixed name, the
four-byte encoding of the block length, and the block bytes; the count is the
number of these records. (`Save` returns no container: it changes none.) -/
theorem Save_layout (c : CCodeDataLog) (room : Nat)
    (hroom : (encodeFile (c.blockRecords addrTypes)).length ≤ room) :
    c.Save (some room) = some
        (((0x0D : Byte) :: cbytes "BIZHAWK-CDL-2") ++ ((0x0F : Byte) :: cbytes "SNES           ") ++
          WRITE_DWORD c.CountActiveBlocks ++
          ((addrTypes.filter (fun k => decide (c.blocks k ≠ []))).map (fun k =>
            ((Fin.ofNat (kBlockNames k).length : Byte) :: kBlockNames k) ++
              WRITE_DWORD (c.blocks k).length ++ c.blocks k)).flatten) ∧
      c.CountActiveBlocks = (addrTypes.filter (fun k => decide (c.blocks k ≠ []))).length := by
  constructor
  · rw [Save_eq, if_pos hroom, CountActiveBlocks_eq]
    unfold encodeFile encodeRecords blockRecords
    rw [List.map_map]
    rfl
  · unfold CountActiveBlocks
    rw [List.countP_eq_length_filter]

/-- Witness of C10: a CARTROM block of two bytes and a WRAM block of one byte,
saved to a device with room for 1000 bytes. -/
theorem Save_layout_witness :
    (encodeFile (twoBlockLog.blockRecords addrTypes)).length ≤ 1000 ∧
      twoBlockLog.Save (some 1000) = some
        [13, 66, 73, 90, 72, 65, 87, 75, 45, 67, 68, 76, 45, 50,
          15, 83, 78, 69, 83, 32, 32, 32, 32, 32, 32, 32, 32, 32, 32, 32,
          0, 0, 0, 2,
          7, 67, 65, 82, 84, 82, 79, 77, 0, 0, 0, 2, 1, 2,
          4, 87, 82, 65, 77, 0, 0, 0, 1, 3] :=
  ⟨by decide, (Save_layout twoBlockLog 1000 (by decide)).1.trans (by decide)⟩

/-! ## Schema rejection -/

/-- C3, as stated, fails: the file with a two-byte CARTROM record is accepted by
`LoadAsIs`, its CARTROM length 2 differs from the length 1 in the container,
and `Load` returns false with the CARTROM block still one byte long, not
reset. -/
theorem Load_schema_rejection_counterexample :
    (LoadAsIs ctor (some twoByteFile)).1 = true ∧
      (∃ k, ((LoadAsIs ctor (some twoByteFile)).2.blocks k).length ≠ (oneByteLog.blocks k).length) ∧
      ¬ ((oneByteLog.Load (some twoByteFile)).1 = false ∧
        ∀ k, ((oneByteLog.Load (some twoByteFile)).2.blocks k).length = 0) := by
  decide

/-- C3, amended. When `LoadAsIs` accepts the file into a newly constructed
container but some block there has a length other than that of the same block
of the current container, `Load` returns false and the current container is
exactly as it was before the call. -/
theorem Load_schema_rejection (c : CCodeDataLog) (file : Option InStream)
    (_hok : (LoadAsIs ctor file).1 = true)
    (hdiff : ∃ k, ((LoadAsIs ctor file).2.blocks k).length ≠ (c.blocks k).length) :
    c.Load file = (false, c) := by
  apply Load_eq_of_reject
  intro hacc
  rcases hdiff with ⟨k, hk⟩
  exact hk (hacc.2 k).symm

/-- Witness of amended C3: the one-byte CARTROM container and the file with a
two-byte CARTROM record. -/
theorem Load_schema_rejection_witness :
    (LoadAsIs ctor (some twoByteFile)).1 = true ∧
      (∃ k, ((LoadAsIs ctor (some twoByteFile)).2.blocks k).length ≠ (oneByteLog.blocks k).length) ∧
      oneByteLog.Load (some twoByteFile) = (false, oneByteLog) :=
  ⟨by decide, by decide, Load_schema_rejection oneByteLog (some twoByteFile) (by decide) (by decide)⟩

/-- Witness of C5: the one-byte CARTROM container merged with a file holding a
one-byte CARTROM record. -/
theorem Load_merge_result_witness :
    (oneByteLog.Load (some cartromFile)).1 = true ∧
      ∀ k, ((oneByteLog.Load (some cartromFile)).2.blocks k).length = (oneByteLog.blocks k).length ∧
        ∀ a, a < (oneByteLog.blocks k).length →
          ∃ x y, (oneByteLog.blocks k)[a]? = some x ∧
            ((LoadAsIs ctor (some cartromFile)).2.blocks k)[a]? = some y ∧
            ((oneByteLog.Load (some cartromFile)).2.blocks k)[a]? = some (x ||| y) :=
  ⟨by decide, (Load_merge_result oneByteLog (some cartromFile)).2 (by decide)⟩

/-! ## Unknown block names -/

/-- C2 at the input of the spec: the loader returns true, but it has read the
ten data bytes of FUTURE_BLOCK as the second record, so the CARTROM record is
never reached and the CARTROM block stays empty instead of holding 1, 2. -/
theorem LoadAsIs_unknown_block_not_skipped :
    futureBlockFile =
        fileHeader ++ WRITE_DWORD 2 ++
          (lpString (cbytes "FUTURE_BLOCK") ++ WRITE_DWORD 10 ++ List.replicate 10 0) ++
          (lpString (cbytes "CARTROM") ++ WRITE_DWORD 2 ++ [1, 2]) ∧
      addrTypeDict_find (cstr (cbytes "FUTURE_BLOCK" ++ [0])) = none ∧
      (LoadAsIs ctor (some futureBlockFile)).1 = true ∧
      (LoadAsIs ctor (some futureBlockFile)).2.blocks eCDLog_AddrType_CARTROM = [] := by
  decide

end CCodeDataLog

/-! ## Failing loads -/

theorem readInt_short (g : InStream) (h : g.length < 4) : readInt g = none := by
  match g, h with
  | [], _ => rfl
  | [_], _ => rfl
  | [_, _], _ => rfl
  | [_, _, _], _ => rfl
  | _ :: _ :: _ :: _ :: _, h =>
    simp only [List.length_cons] at h
    omega

theorem expectString_eq_some (f s g : List Byte) :
    expectString f s = some g ↔ readLeb128 f = some (s.length, s ++ g) := by
  unfold expectString
  cases hr : readLeb128 f with
  | none => simp
  | some r =>
    obtain ⟨size, fp⟩ := r
    simp only [fread, List.length_take, List.length_replicate, List.drop_replicate]
    by_cases hs : s.length = size
    · subst hs
      by_cases hl : s.length ≤ fp.length
      · have h1 : min s.length fp.length = s.length := Nat.min_eq_left hl
        simp only [h1, ne_eq, not_true_eq_false, if_false, Nat.sub_self, List.replicate_zero,
          List.append_nil, Option.some.injEq, Prod.mk.injEq, true_and]
        constructor
        · intro h
          split at h
          · rename_i he
            have hg : List.drop s.length fp = g := Option.some.inj h
            rw [← he, ← hg]
            exact (List.take_append_drop _ _).symm
          · exact absurd h (by simp)
        · intro h
          subst h
          simp
      · have h1 : min s.length fp.length ≠ s.length := by
          rw [Nat.min_def]
          split <;> omega
        simp only [ne_eq, not_true_eq_false, if_false, h1, not_false_eq_true, if_true,
          Option.some.injEq, Prod.mk.injEq, true_and]
        constructor
        · intro h
          exact absurd h (by simp)
        · intro h
          exfalso
          apply hl
          rw [h, List.length_append]
          omega
    · simp only [ne_eq, hs, not_false_eq_true, if_true, Option.some.injEq, Prod.mk.injEq]
      constructor
      · intro h
        exact absurd h (by simp)
      · intro h
        exact absurd h.1.symm hs

theorem expectString_eq_none (f s : List Byte)
    (h : ¬ ∃ g, readLeb128 f = some (s.length, s ++ g)) : expectString f s = none := by
  cases he : expectString f s with
  | none => rfl
  | some g => exact absurd ⟨g, (expectString_eq_some f s g).mp he⟩ h

theorem readString_bad (bad : List Byte) (h : BadRecord bad) :
    readString bad 32 = none ∨
      ∃ name g, readString bad 32 = some (name, g) ∧
        (readInt g = none ∨
          ∃ size d k, readInt g = some (size, d) ∧
            CCodeDataLog.addrTypeDict_find (cstr name) = some k ∧ d.length < size) := by
  cases h with
  | truncatedName s t _ hs ht he =>
    left
    cases bad with
    | nil => rfl
    | cons b p =>
      unfold lpString at he
      rw [List.cons_append] at he
      have hb : b = Fin.ofNat s.length := (List.cons.inj he).1.symm
      have hp : s = p ++ t := (List.cons.inj he).2
      have hlt : p.length < s.length := by
        rw [hp, List.length_append]
        have : 0 < t.length := List.length_pos.mpr ht
        omega
      unfold readString
      rw [hb, readLeb128_small _ hs]
      show (if 32 ≤ s.length then none
        else if (fread (List.replicate s.length 0) s.length p).1 ≠ s.length then none
        else some ((fread (List.replicate s.length 0) s.length p).2.1 ++ [0],
          (fread (List.replicate s.length 0) s.length p).2.2)) = none
      split
      · rfl
      · rw [if_pos (fread_short (List.replicate s.length 0) s.length p hlt)]
  | longName n rest _ hr hn =>
    left
    unfold readString
    rw [hr]
    show (if 32 ≤ n then none else _) = none
    rw [if_pos hn]
  | truncatedLength s g hs hg =>
    right
    exact ⟨s ++ [0], g, readString_lp s g 32 (by omega) hs, Or.inl (readInt_short g hg)⟩
  | truncatedData s d n k hs hk hn hd =>
    right
    refine ⟨s ++ [0], WRITE_DWORD n ++ d, ?_, Or.inr ⟨n, d, k, readInt_WRITE_DWORD n hn d, hk, hd⟩⟩
    rw [List.append_assoc]
    exact readString_lp s _ 32 (by omega) hs

namespace CCodeDataLog

theorem loadBlocks_bad (m : Nat) (c : CCodeDataLog) (bad : List Byte) (h : BadRecord bad) :
    loadBlocks (m + 1) c bad = (false, c.Close) := by
  rw [loadBlocks]
  rcases readString_bad bad h with h1 | ⟨name, g, h1, h2⟩
  · rw [h1]
  · rw [h1]
    simp only
    rcases h2 with h2 | ⟨size, d, k, h2, h3, h4⟩
    · rw [h2]
    · rw [h2]
      simp only [h3]
      show (if (fread (resize (c.blocks k) size) size d).1 ≠ size then (false, c.Close)
        else _) = (false, c.Close)
      rw [if_pos (fread_short (resize (c.blocks k) size) size d h4)]

theorem loadBlocks_fail (n : Nat) (c : CCodeDataLog) (fp : InStream)
    (h : (loadBlocks n c fp).1 = false) : (loadBlocks n c fp).2 = c.Close := by
  induction n generalizing c fp with
  | zero => simp [loadBlocks] at h
  | succ n ih =>
    rw [loadBlocks] at h ⊢
    cases h1 : readString fp 32 with
    | none => rfl
    | some r =>
      obtain ⟨name, g⟩ := r
      rw [h1] at h
      simp only at h ⊢
      cases h2 : readInt g with
      | none => rfl
      | some q =>
        obtain ⟨size, d⟩ := q
        rw [h2] at h
        simp only at h ⊢
        cases h3 : addrTypeDict_find (cstr name) with
        | none =>
          rw [h3] at h
          exact ih c d h
        | some k =>
          rw [h3] at h
          simp only at h ⊢
          split
          · rfl
          · rename_i hn
            rw [if_neg hn] at h
            exact ih _ _ h

theorem LoadAsIs_fail (c : CCodeDataLog) (f : List Byte)
    (h : (LoadAsIs c (some f)).1 = false) : (LoadAsIs c (some f)).2 = c.Close := by
  unfold LoadAsIs at h ⊢
  simp only at h ⊢
  cases h1 : expectString f (cbytes "BIZHAWK-CDL-2") with
  | none => rfl
  | some g =>
    rw [h1] at h
    simp only at h ⊢
    cases h2 : expectString g (cbytes "SNES           ") with
    | none => rfl
    | some g2 =>
      rw [h2] at h
      simp only at h ⊢
      cases h3 : readInt g2 with
      | none => rfl
      | some q =>
        obtain ⟨count, d⟩ := q
        rw [h3] at h
        simp only at h ⊢
        exact loadBlocks_fail _ _ _ h

theorem LoadAsIs_malformed (c : CCodeDataLog) (f : List Byte) (h : Malformed (2 ^ 31) f) :
    (LoadAsIs c (some f)).1 = false := by
  cases h with
  | magic _ hm =>
    unfold LoadAsIs
    simp only
    rw [expectString_eq_none f (cbytes "BIZHAWK-CDL-2") hm]
  | platform _ g hm hp =>
    unfold LoadAsIs
    simp only
    rw [(expectString_eq_some f (cbytes "BIZHAWK-CDL-2") g).mpr hm]
    simp only
    rw [expectString_eq_none g (cbytes "SNES           ") hp]
  | count g hg =>
    unfold LoadAsIs fileHeader
    simp only
    rw [List.append_assoc, expectString_lp _ _ (by decide)]
    simp only
    rw [expectString_lp _ _ (by decide)]
    simp only
    rw [readInt_short g hg]
  | record n rs bad hn hlt hrs hbad =>
    rw [List.append_assoc, LoadAsIs_header _ _ (by omega)]
    have e : loadRounds n = rs.length + (n - rs.length - 1 + 1) := by
      unfold loadRounds
      rw [if_pos hn]
      omega
    rw [e, loadBlocks_records _ _ _ _ hrs, loadBlocks_bad _ _ _ hbad]

end CCodeDataLog

namespace CCodeDataLog

theorem signedCountFile_malformed : Malformed (2 ^ 32) signedCountFile :=
  Malformed.record 0x80000080 [] [7, 67, 65] (by decide) (by decide)
    (fun _ h => absurd h (List.not_mem_nil _))
    (BadRecord.truncatedName (cbytes "CARTROM") [82, 84, 82, 79, 77] [7, 67, 65]
      (by decide) (by decide) (by decide))

theorem truncatedDataFile_malformed : Malformed (2 ^ 31) truncatedDataFile :=
  Malformed.record 2 [(cbytes "WRAM", [1, 2, 3])] (lpString (cbytes "CARTROM") ++ WRITE_DWORD 4 ++ [9])
    (by decide) (by decide)
    (fun r h => by
      rw [List.mem_singleton] at h
      rw [h]
      exact ⟨by decide, by decide, 2, by decide⟩)
    (BadRecord.truncatedData (cbytes "CARTROM") [9] 4 0 (by decide) (by decide) (by decide)
      (by decide))

/-- C4, as stated, fails: a file with both header strings, the count field
0x80000080 and a first record cut short inside its name is malformed in the
sense of the claim (counts up to 2^32 - 1), yet `LoadAsIs` returns true on it:
the count is compared as a signed `int`, so no record is read. -/
theorem LoadAsIs_fail_clean_counterexample :
    Malformed (2 ^ 32) signedCountFile ∧
      ¬ ((LoadAsIs ctor (some signedCountFile)).1 = false ∧
        ∀ k, ((LoadAsIs ctor (some signedCountFile)).2.blocks k).length = 0) :=
  ⟨signedCountFile_malformed, by decide⟩

/-- C4, amended. For every prior container state and every file content that
can be opened: whenever `LoadAsIs` returns false, each of the eight blocks has
length 0 afterwards; and it does return false when the first length-prefixed
string is not exactly "BIZHAWK-CDL-2", or the second is not exactly "SNES" with
11 spaces, or the count is cut short, or, the count being below 2^31, fewer
than that many loadable records (recognised name shorter than 32 bytes, length
below 2^32) are followed by a record whose name is cut short or declares 32
bytes or more, whose length field is cut short, or whose name is recognised and
whose data is cut short. -/
theorem LoadAsIs_fail_clean (c : CCodeDataLog) (f : List Byte) :
    ((LoadAsIs c (some f)).1 = false → ∀ k, ((LoadAsIs c (some f)).2.blocks k).length = 0) ∧
      (Malformed (2 ^ 31) f → (LoadAsIs c (some f)).1 = false) := by
  constructor
  · intro h k
    rw [LoadAsIs_fail c f h]
    rfl
  · exact LoadAsIs_malformed c f

/-- Witness of amended C4: a container holding a CARTROM byte, and a file whose
complete WRAM record is followed by a CARTROM record with data cut short; the
WRAM block filled from the first record is empty afterwards. -/
theorem LoadAsIs_fail_clean_witness :
    Malformed (2 ^ 31) truncatedDataFile ∧
      (LoadAsIs oneByteLog (some truncatedDataFile)).1 = false ∧
      ∀ k, ((LoadAsIs oneByteLog (some truncatedDataFile)).2.blocks k).length = 0 :=
  ⟨truncatedDataFile_malformed,
    (LoadAsIs_fail_clean oneByteLog truncatedDataFile).2 truncatedDataFile_malformed,
    (LoadAsIs_fail_clean oneByteLog truncatedDataFile).1 (by decide)⟩

end CCodeDataLog

/-! ## LEB128 -/

theorem group_bits : ∀ x : Fin 128,
    ((x.val ||| 0x80) % 256) &&& 0x80 ≠ 0 ∧ ((x.val ||| 0x80) % 256) &&& 0x7f = x.val ∧
      (x.val % 256) &&& 0x80 = 0 ∧ (x.val % 256) &&& 0x7f = x.val := by decide

theorem and_0x7f (v : Nat) : v &&& 0x7f = v % 2 ^ 7 :=
  Nat.and_pow_two_sub_one_eq_mod v 7

theorem fwrite_nil (fp : OutStream) : fwrite [] fp = some fp := by
  cases fp
  simp [fwrite]

theorem writeLeb128Loop_eq (rounds value : Nat) (fp : OutStream) :
    writeLeb128Loop rounds value fp = fwrite (lebBytes rounds value) fp := by
  induction rounds generalizing value fp with
  | zero => rw [writeLeb128Loop, lebBytes, fwrite_nil]
  | succ r ih =>
    rw [writeLeb128Loop, lebBytes]
    by_cases h : value >>> 7 = 0
    · simp only [h, ne_eq, not_true_eq_false, if_false]
      rw [fputc_eq_fwrite]
      cases fwrite [Fin.ofNat (value &&& 0x7f)] fp <;> rfl
    · simp only [h, ne_eq, not_false_eq_true, if_true]
      rw [fputc_eq_fwrite,
        show (Fin.ofNat (value &&& 0x7f ||| 0x80) :: lebBytes r (value >>> 7) : List Byte) =
          [Fin.ofNat (value &&& 0x7f ||| 0x80)] ++ lebBytes r (value >>> 7) from rfl,
        fwrite_append]
      cases fwrite [Fin.ofNat (value &&& 0x7f ||| 0x80)] fp with
      | none => rfl
      | some fp1 => exact ih _ fp1

theorem split_or (c V s : Nat) :
    (((c % 2 ^ 7) + 128 * V) <<< s) % 2 ^ 32 =
      ((c % 2 ^ 7) <<< s) % 2 ^ 32 ||| (V <<< (s + 7)) % 2 ^ 32 := by
  have e : c % 2 ^ 7 + 128 * V = 2 ^ 7 * V ||| c % 2 ^ 7 := by
    rw [← Nat.mul_add_lt_is_or (Nat.mod_lt _ (by decide))]
    omega
  rw [e]
  apply Nat.eq_of_testBit_eq
  intro i
  simp only [Nat.testBit_or, Nat.testBit_mod_two_pow, Nat.testBit_shiftLeft,
    Nat.testBit_mul_pow_two]
  by_cases h32 : i < 32
  · by_cases hs : i ≥ s
    · by_cases h7 : i - s ≥ 7
      · have e1 : i ≥ s + 7 := by omega
        have e2 : i - s - 7 = i - (s + 7) := by omega
        have e3 : ¬ i - s < 7 := by omega
        simp [h32, hs, h7, e1, e2, e3]
      · have e1 : ¬ i ≥ s + 7 := by omega
        have e3 : i - s < 7 := by omega
        simp [h32, hs, h7, e1, e3]
    · have e1 : ¬ i ≥ s + 7 := by omega
      simp [h32, hs, e1]
  · simp [h32]

/-- The reader loop on a run of continuation bytes closed by a byte with a clear
high bit. -/
theorem readLeb128Loop_run (pre : List Byte) (b : Byte) (rest : InStream) (v shift : Nat)
    (hpre : ∀ c ∈ pre, c.val &&& 0x80 ≠ 0) (hb : b.val &&& 0x80 = 0) :
    readLeb128Loop (pre ++ b :: rest) v shift =
      some (v ||| (lebValue (pre ++ [b]) <<< shift) % 2 ^ 32, rest) := by
  induction pre generalizing v shift with
  | nil =>
    rw [List.nil_append, readLeb128Loop]
    simp only [hb, if_true, List.nil_append, lebValue, Nat.mul_zero, Nat.add_zero]
  | cons c cs ih =>
    have hc : c.val &&& 0x80 ≠ 0 := hpre c (List.mem_cons_self _ _)
    rw [List.cons_append, readLeb128Loop]
    simp only [hc, if_false]
    rw [ih _ _ (fun x hx => hpre x (List.mem_cons_of_mem _ hx))]
    rw [List.cons_append, lebValue, and_0x7f, split_or, Nat.or_assoc]

theorem readLeb128Loop_none (fp : InStream) (v shift : Nat) :
    readLeb128Loop fp v shift = none ↔ ∀ c ∈ fp, c.val &&& 0x80 ≠ 0 := by
  induction fp generalizing v shift with
  | nil => simp [readLeb128Loop]
  | cons c cs ih =>
    rw [readLeb128Loop]
    by_cases hc : c.val &&& 0x80 = 0
    · simp [hc]
    · simp only [hc, if_false, ih, List.mem_cons, forall_eq_or_imp, ne_eq, not_false_eq_true,
        true_and]

theorem shiftRight7 (v : Nat) : v >>> 7 = v / 128 := Nat.shiftRight_eq_div_pow v 7

theorem lebBytes_run (rounds v : Nat) (h : v < 2 ^ (7 * rounds)) (hr : 1 ≤ rounds) :
    ∃ pre b, lebBytes rounds v = pre ++ [b] ∧ (∀ c ∈ pre, c.val &&& 0x80 ≠ 0) ∧
      b.val &&& 0x80 = 0 ∧ lebValue (pre ++ [b]) = v := by
  induction rounds generalizing v with
  | zero => omega
  | succ r ih =>
    rw [lebBytes]
    by_cases h7 : v >>> 7 = 0
    · rw [if_neg (not_not.mpr h7)]
      rw [shiftRight7] at h7
      have hlt : v < 128 := by omega
      have hb := group_bits ⟨v, hlt⟩
      simp only at hb
      have hm : v &&& 0x7f = v := by rw [and_0x7f]; omega
      refine ⟨[], Fin.ofNat (v &&& 0x7f), rfl, fun c hc => absurd hc (List.not_mem_nil _), ?_, ?_⟩
      · show ((v &&& 0x7f) % 256) &&& 0x80 = 0
        rw [hm]
        exact hb.2.2.1
      · show (((v &&& 0x7f) % 256) &&& 0x7f) + 128 * 0 = v
        rw [hm, hb.2.2.2, Nat.mul_zero, Nat.add_zero]
    · rw [if_pos h7]
      have h7d : v / 128 ≠ 0 := by rw [← shiftRight7]; exact h7
      have hw : v >>> 7 < 2 ^ (7 * r) := by
        rw [shiftRight7]
        have : 2 ^ (7 * (r + 1)) = 2 ^ (7 * r) * 128 := by
          rw [Nat.mul_add, pow_add]
          rfl
        rw [this] at h
        exact Nat.div_lt_of_lt_mul (by rw [Nat.mul_comm]; exact h)
      have hr1 : 1 ≤ r := by
        rcases Nat.eq_zero_or_pos r with h0 | h0
        · rw [h0, shiftRight7] at hw
          simp at hw
          omega
        · exact h0
      obtain ⟨pre, b, e, hp, hb, hval⟩ := ih (v >>> 7) hw hr1
      have hg := group_bits ⟨v % 128, Nat.mod_lt _ (by decide)⟩
      simp only at hg
      have hc1 : (Fin.ofNat ((v &&& 0x7f) ||| 0x80) : Byte).val &&& 0x80 ≠ 0 := by
        show (((v &&& 0x7f) ||| 0x80) % 256) &&& 0x80 ≠ 0
        rw [and_0x7f v]
        exact hg.1
      have hc2 : (Fin.ofNat ((v &&& 0x7f) ||| 0x80) : Byte).val &&& 0x7f = v % 128 := by
        show (((v &&& 0x7f) ||| 0x80) % 256) &&& 0x7f = v % 128
        rw [and_0x7f v]
        exact hg.2.1
      refine ⟨Fin.ofNat ((v &&& 0x7f) ||| 0x80) :: pre, b, by rw [e]; rfl, ?_, hb, ?_⟩
      · intro c hc
        rcases List.mem_cons.mp hc with hc | hc
        · rw [hc]
          exact hc1
        · exact hp c hc
      · rw [List.cons_append, lebValue, hc2, hval, shiftRight7]
        omega

theorem lebBytes_read (v : Nat) (h : v < 2 ^ 32) (t : InStream) :
    readLeb128 (lebBytes 5 v ++ t) = some (v, t) := by
  obtain ⟨pre, b, e, hp, hb, hval⟩ := lebBytes_run 5 v (lt_trans h (by decide)) (by decide)
  unfold readLeb128
  rw [e, List.append_assoc, List.singleton_append, readLeb128Loop_run pre b t 0 0 hp hb, hval,
    Nat.shiftLeft_zero, Nat.zero_or, Nat.mod_eq_of_lt h]

theorem lebLength_small (v : Nat) (h : v < 128) : lebLength v = 1 := by
  unfold lebLength
  split
  · rfl
  · rename_i h0
    have h1 : Nat.size v ≤ 7 := Nat.size_le.mpr h
    have h2 : 0 < Nat.size v := Nat.size_pos.mpr (Nat.pos_of_ne_zero h0)
    omega

theorem size_step (v : Nat) (h : 128 ≤ v) : Nat.size v = Nat.size (v / 128) + 7 := by
  have hw : 0 < v / 128 := Nat.div_pos h (by decide)
  have hs : 0 < Nat.size (v / 128) := Nat.size_pos.mpr hw
  have h1 : v / 128 < 2 ^ Nat.size (v / 128) := Nat.lt_size_self _
  have h2 : 2 ^ (Nat.size (v / 128) - 1) ≤ v / 128 :=
    Nat.lt_size.mp (Nat.sub_lt hs (by decide))
  apply le_antisymm
  · apply Nat.size_le.mpr
    rw [pow_add]
    have : v < (v / 128 + 1) * 128 := by omega
    calc v < (v / 128 + 1) * 128 := this
      _ ≤ 2 ^ Nat.size (v / 128) * 2 ^ 7 := Nat.mul_le_mul_right _ h1
  · have h3 : Nat.size (v / 128) + 6 < Nat.size v := by
      apply Nat.lt_size.mpr
      have e : Nat.size (v / 128) + 6 = (Nat.size (v / 128) - 1) + 7 := by omega
      rw [e, pow_add]
      calc 2 ^ (Nat.size (v / 128) - 1) * 2 ^ 7 ≤ v / 128 * 2 ^ 7 := Nat.mul_le_mul_right _ h2
        _ ≤ v := by omega
    omega

theorem lebLength_step (v : Nat) (h : 128 ≤ v) : lebLength v = lebLength (v / 128) + 1 := by
  have hw : v / 128 ≠ 0 := Nat.ne_of_gt (Nat.div_pos h (by decide))
  have hv : v ≠ 0 := by omega
  unfold lebLength
  rw [if_neg hv, if_neg hw, size_step v h]
  omega

theorem lebByte_succ (v n i : Nat) : lebByte v (n + 1) (i + 1) = lebByte (v >>> 7) n i := by
  unfold lebByte
  have e : 7 * (i + 1) = 7 + 7 * i := by omega
  rw [e, Nat.shiftRight_add]
  by_cases hi : i + 1 < n
  · have : i + 1 + 1 < n + 1 := by omega
    rw [if_pos hi, if_pos this]
  · have : ¬ i + 1 + 1 < n + 1 := by omega
    rw [if_neg hi, if_neg this]

theorem lebBytes_canonical (rounds v : Nat) (h : v < 2 ^ (7 * rounds)) (hr : 1 ≤ rounds) :
    lebLength v ≤ rounds ∧
      lebBytes rounds v = (List.range (lebLength v)).map (lebByte v (lebLength v)) := by
  induction rounds generalizing v with
  | zero => omega
  | succ r ih =>
    rw [lebBytes]
    by_cases h7 : v >>> 7 = 0
    · rw [if_neg (not_not.mpr h7)]
      rw [shiftRight7] at h7
      have hlt : v < 128 := by omega
      rw [lebLength_small v hlt]
      refine ⟨by omega, ?_⟩
      rw [show List.range 1 = [0] from rfl, List.map_cons, List.map_nil]
      unfold lebByte
      rw [if_neg (by decide), Nat.mul_zero, Nat.shiftRight_zero, Nat.or_zero]
    · rw [if_pos h7]
      have h7d : v / 128 ≠ 0 := by rw [← shiftRight7]; exact h7
      have hge : 128 ≤ v := by omega
      have hw : v >>> 7 < 2 ^ (7 * r) := by
        rw [shiftRight7]
        have : 2 ^ (7 * (r + 1)) = 2 ^ (7 * r) * 128 := by
          rw [Nat.mul_add, pow_add]
          rfl
        rw [this] at h
        exact Nat.div_lt_of_lt_mul (by rw [Nat.mul_comm]; exact h)
      have hr1 : 1 ≤ r := by
        rcases Nat.eq_zero_or_pos r with h0 | h0
        · rw [h0, shiftRight7] at hw
          simp at hw
          omega
        · exact h0
      obtain ⟨hle, e⟩ := ih (v >>> 7) hw hr1
      rw [lebLength_step v hge, ← shiftRight7]
      refine ⟨by omega, ?_⟩
      rw [e, List.range_succ_eq_map, List.map_cons, List.map_map]
      have hpos : 0 < lebLength (v >>> 7) := by
        unfold lebLength
        split
        · decide
        · rename_i h0
          have := Nat.size_pos.mpr (Nat.pos_of_ne_zero h0)
          omega
      congr 1
      · unfold lebByte
        have : 0 + 1 < lebLength (v >>> 7) + 1 := by omega
        rw [if_pos this]
        rfl
      · apply List.map_congr_left
        intro i _
        exact (lebByte_succ v _ i).symm

theorem writeLeb128_eq (fp : OutStream) (v : Nat) :
    writeLeb128 fp v = fwrite (lebBytes 5 (v % 2 ^ 32)) fp := by
  unfold writeLeb128
  exact writeLeb128Loop_eq 5 _ fp

theorem lebBytes_length (v : Nat) (h : v < 2 ^ 32) :
    (lebBytes 5 v).length = lebLength v ∧ 1 ≤ lebLength v ∧ lebLength v ≤ 5 := by
  obtain ⟨hle, e⟩ := lebBytes_canonical 5 v (lt_trans h (by decide)) (by decide)
  refine ⟨by rw [e, List.length_map, List.length_range], ?_, hle⟩
  unfold lebLength
  split
  · decide
  · rename_i h0
    have := Nat.size_pos.mpr (Nat.pos_of_ne_zero h0)
    omega

/-- C14. Varint round trip: for every value below 2^32 and every byte sequence
`t`, `writeLeb128` succeeds on a device with room for five bytes, and whenever
it succeeds `readLeb128` on the bytes written followed by `t` returns the value
and leaves exactly `t` unread. -/
theorem leb128_round_trip (v : Nat) (hv : v < 2 ^ 32) (t : InStream) (room : Nat) :
    (5 ≤ room → ∃ fp, writeLeb128 ⟨room, []⟩ v = some fp) ∧
      ∀ fp, writeLeb128 ⟨room, []⟩ v = some fp → readLeb128 (fp.data ++ t) = some (v, t) := by
  have hl := lebBytes_length v hv
  rw [writeLeb128_eq, Nat.mod_eq_of_lt hv]
  unfold fwrite
  constructor
  · intro hroom
    have : ¬ room < (lebBytes 5 v).length := by
      rw [hl.1]
      have := hl.2.2
      omega
    exact ⟨_, if_neg this⟩
  · intro fp hfp
    split at hfp
    · exact absurd hfp (by simp)
    · have e : fp.data = lebBytes 5 v := by
        rw [← Option.some.inj hfp]
        rfl
      rw [e]
      exact lebBytes_read v hv t

/-- Witness of C14: the value 300 written to a device with room for five bytes
and read back in front of the byte 9. -/
theorem leb128_round_trip_witness :
    (300 : Nat) < 2 ^ 32 ∧ writeLeb128 ⟨5, []⟩ 300 = some ⟨3, [0xAC, 0x02]⟩ ∧
      readLeb128 ([0xAC, 0x02] ++ [9]) = some (300, [9]) :=
  ⟨by decide, by decide,
    (leb128_round_trip 300 (by decide) [9] 5).2 ⟨3, [0xAC, 0x02]⟩ (by decide)⟩

/-- C15. Canonical form: for every value `v` below 2^32, on a device with room
for five bytes, `writeLeb128` writes `n` bytes, where `n` is 1 for `v = 0` and
the bit length of `v` divided by 7, rounded up, otherwise (so 1 ≤ n ≤ 5); byte
`i` is `(v >> 7i) AND 0x7F` with the high bit set exactly when `i < n - 1`. In
particular 0 gives 0x00, 127 gives 0x7F and 128 gives 0x80 0x01. -/
theorem writeLeb128_canonical (v : Nat) (hv : v < 2 ^ 32) (room : Nat) (hroom : 5 ≤ room) :
    (1 ≤ lebLength v ∧ lebLength v ≤ 5) ∧
      writeLeb128 ⟨room, []⟩ v =
        some ⟨room - lebLength v, (List.range (lebLength v)).map (lebByte v (lebLength v))⟩ ∧
      writeLeb128 ⟨5, []⟩ 0 = some ⟨4, [0x00]⟩ ∧
      writeLeb128 ⟨5, []⟩ 127 = some ⟨4, [0x7F]⟩ ∧
      writeLeb128 ⟨5, []⟩ 128 = some ⟨3, [0x80, 0x01]⟩ := by
  have hl := lebBytes_length v hv
  refine ⟨hl.2, ?_, by decide, by decide, by decide⟩
  have e := (lebBytes_canonical 5 v (lt_trans hv (by decide)) (by decide)).2
  rw [writeLeb128_eq, Nat.mod_eq_of_lt hv]
  unfold fwrite
  have : ¬ room < (lebBytes 5 v).length := by
    rw [hl.1]
    have := hl.2.2
    omega
  rw [if_neg this, hl.1, e]
  rfl

/-- Witness of C15: the value 300 (bit length 9, two bytes). -/
theorem writeLeb128_canonical_witness :
    (300 : Nat) < 2 ^ 32 ∧ 5 ≤ 8 ∧
      writeLeb128 ⟨8, []⟩ 300 =
        some ⟨8 - lebLength 300, (List.range (lebLength 300)).map (lebByte 300 (lebLength 300))⟩ :=
  ⟨by decide, by decide, (writeLeb128_canonical 300 (by decide) 8 (by decide)).2.1⟩

theorem lebValue_eq_sum (l : List Byte) :
    lebValue l =
      Finset.sum (Finset.range l.length) (fun i => ((l.getD i 0).val &&& 0x7f) * 2 ^ (7 * i)) := by
  induction l with
  | nil => rfl
  | cons c cs ih =>
    rw [lebValue, List.length_cons, Finset.sum_range_succ', ih, Finset.mul_sum]
    simp only [List.getD_cons_succ, List.getD_cons_zero, Nat.mul_zero, pow_zero, Nat.mul_one]
    rw [Nat.add_comm]
    congr 1
    apply Finset.sum_congr rfl
    intro i _
    have : 7 * (i + 1) = 7 * i + 7 := by omega
    rw [this, pow_add]
    ring

/-- C16. Decoding: `readLeb128` fails exactly when no byte of the input has a
clear high bit; and when the first such byte is at index `k ≤ 4` (the bytes
before it, `pre`, all have the high bit set) it returns the sum over
`i = 0..k` of `(byte i AND 0x7F) * 2^(7i)` modulo 2^32 and leaves exactly the
bytes after index `k` unread. -/
theorem readLeb128_decoding (fp : InStream) :
    (readLeb128 fp = none ↔ ∀ c ∈ fp, c.val &&& 0x80 ≠ 0) ∧
      ∀ (pre : List Byte) (b : Byte) (rest : InStream), fp = pre ++ b :: rest →
        (∀ c ∈ pre, c.val &&& 0x80 ≠ 0) → b.val &&& 0x80 = 0 → pre.length ≤ 4 →
        readLeb128 fp =
          some ((Finset.sum (Finset.range (pre.length + 1))
            (fun i => ((fp.getD i 0).val &&& 0x7f) * 2 ^ (7 * i))) % 2 ^ 32, rest) := by
  constructor
  · exact readLeb128Loop_none fp 0 0
  · intro pre b rest e hpre hb _
    unfold readLeb128
    rw [e, readLeb128Loop_run pre b rest 0 0 hpre hb, Nat.shiftLeft_zero, Nat.zero_or,
      lebValue_eq_sum]
    have hlen : (pre ++ [b]).length = pre.length + 1 := by simp
    rw [hlen]
    congr 3
    apply Finset.sum_congr rfl
    intro i hi
    have hi2 : i < (pre ++ [b]).length := by
      rw [hlen]
      exact Finset.mem_range.mp hi
    have e2 : pre ++ b :: rest = (pre ++ [b]) ++ rest := by simp
    rw [e2, List.getD_append _ _ _ _ hi2]

/-- Witness of C16: two continuation bytes, a closing byte and one byte left. -/
theorem readLeb128_decoding_witness :
    readLeb128 [0x81, 0x82, 0x03, 0x55] = some (0x01 + 0x02 * 2 ^ 7 + 0x03 * 2 ^ 14, [0x55]) ∧
      readLeb128 [0x81, 0x82, 0x03, 0x55] =
        some ((Finset.sum (Finset.range (([0x81, 0x82] : List Byte).length + 1))
          (fun i => ((([0x81, 0x82, 0x03, 0x55] : List Byte).getD i 0).val &&& 0x7f) *
            2 ^ (7 * i))) % 2 ^ 32, [0x55]) :=
  ⟨by decide, (readLeb128_decoding [0x81, 0x82, 0x03, 0x55]).2 [0x81, 0x82] 0x03 [0x55] rfl
    (List.forall_mem_cons.mpr ⟨by decide, List.forall_mem_cons.mpr ⟨by decide,
      fun _ h => absurd h (List.not_mem_nil _)⟩⟩) (by decide) (by decide)⟩

/-- C17. Fixed-width integers, with `READ_DWORD` and `WRITE_DWORD` as the spec
fixes them: `writeInt` of a value below 2^32 on a device with room for four
bytes appends the bytes `(v >> 24) AND 0xFF`, `(v >> 16) AND 0xFF`,
`(v >> 8) AND 0xFF`, `v AND 0xFF`; `readInt` on four bytes and more consumes
four and returns `b0 * 2^24 + b1 * 2^16 + b2 * 2^8 + b3`; it fails on fewer than
four bytes. -/
theorem fixed_int_big_endian (v : Nat) (_hv : v < 2 ^ 32) (fp : OutStream)
    (hroom : 4 ≤ fp.room) (b0 b1 b2 b3 : Byte) (rest short : InStream)
    (hshort : short.length < 4) :
    writeInt fp v = some ⟨fp.room - 4, fp.data ++
        [Fin.ofNat ((v >>> 24) &&& 0xFF), Fin.ofNat ((v >>> 16) &&& 0xFF),
          Fin.ofNat ((v >>> 8) &&& 0xFF), Fin.ofNat (v &&& 0xFF)]⟩ ∧
      readInt (b0 :: b1 :: b2 :: b3 :: rest) =
        some (b0.val * 2 ^ 24 + b1.val * 2 ^ 16 + b2.val * 2 ^ 8 + b3.val, rest) ∧
      readInt short = none := by
  refine ⟨?_, rfl, readInt_short short hshort⟩
  rw [writeInt_eq]
  unfold fwrite WRITE_DWORD
  have h4 : ¬ fp.room < 4 := by omega
  have e : ∀ a : Nat, (Fin.ofNat (a &&& 0xFF) : Byte) = Fin.ofNat a := by
    intro a
    apply Fin.ext
    show (a &&& 0xFF) % 256 = a % 256
    rw [Nat.and_pow_two_sub_one_eq_mod a 8]
    omega
  simp only [List.length_cons, List.length_nil, Nat.zero_add, Nat.reduceAdd, h4, if_false,
    Nat.shiftRight_eq_div_pow, e]

/-- Witness of C17: the value 0x01020304 and the four bytes 1, 2, 3, 4. -/
theorem fixed_int_big_endian_witness :
    (0x01020304 : Nat) < 2 ^ 32 ∧ writeInt ⟨4, []⟩ 0x01020304 = some ⟨0, [1, 2, 3, 4]⟩ ∧
      readInt [1, 2, 3, 4, 9] = some (0x01020304, [9]) ∧ readInt [1, 2, 3] = none :=
  ⟨by decide,
    (fixed_int_big_endian 0x01020304 (by decide) ⟨4, []⟩ (by decide) 1 2 3 4 [9] [1, 2, 3]
      (by decide)).1.trans (by decide),
    by decide, by decide⟩

/-- C18. Capacity rule: `readString` fails when the length prefix cannot be
decoded, when the decoded length `n` is at least the capacity, or when fewer
than `n` bytes follow the prefix; otherwise it returns the `n` bytes after the
prefix followed by the terminating zero at position `n`, and leaves the stream
after those `n` bytes. With capacity 32 a name whose bytes are all there is
accepted exactly when `n ≤ 31`. -/
theorem readString_capacity (fp : InStream) (capacity : Nat) :
    (readLeb128 fp = none → readString fp capacity = none) ∧
      ∀ n rest, readLeb128 fp = some (n, rest) →
        (capacity ≤ n → readString fp capacity = none) ∧
        (rest.length < n → readString fp capacity = none) ∧
        (n < capacity → n ≤ rest.length →
          readString fp capacity = some (rest.take n ++ [0], rest.drop n) ∧
            (rest.take n ++ [0])[n]? = some 0) ∧
        (n ≤ rest.length → ((readString fp 32).isSome ↔ n ≤ 31)) := by
  have key : ∀ cap n rest, readLeb128 fp = some (n, rest) →
      readString fp cap =
        if cap ≤ n then none
        else if rest.length < n then none else some (rest.take n ++ [0], rest.drop n) := by
    intro cap n rest h
    unfold readString
    rw [h]
    simp only [fread, List.length_take, List.length_replicate, List.drop_replicate]
    by_cases hc : cap ≤ n
    · rw [if_pos hc, if_pos hc]
    · rw [if_neg hc, if_neg hc]
      by_cases hl : rest.length < n
      · have : min n rest.length ≠ n := by
          rw [Nat.min_def]
          split <;> omega
        rw [if_pos this, if_pos hl]
      · have : min n rest.length = n := Nat.min_eq_left (by omega)
        rw [if_neg (not_not.mpr this), if_neg hl, this, Nat.sub_self, List.replicate_zero,
          List.append_nil]
  constructor
  · intro h
    unfold readString
    rw [h]
  · intro n rest h
    refine ⟨?_, ?_, ?_, ?_⟩
    · intro hc
      rw [key capacity n rest h, if_pos hc]
    · intro hl
      rw [key capacity n rest h]
      by_cases hc : capacity ≤ n
      · rw [if_pos hc]
      · rw [if_neg hc, if_pos hl]
    · intro hc hl
      constructor
      · rw [key capacity n rest h, if_neg (by omega), if_neg (by omega)]
      · have : (rest.take n).length = n := by
          rw [List.length_take]
          exact Nat.min_eq_left hl
        rw [List.getElem?_append_right (by omega), this, Nat.sub_self]
        rfl
    · intro hl
      rw [key 32 n rest h]
      by_cases hc : 32 ≤ n
      · rw [if_pos hc]
        simp only [Option.isSome_none, Bool.false_eq_true, false_iff]
        omega
      · rw [if_neg hc, if_neg (by omega)]
        simp only [Option.isSome_some, true_iff]
        omega

/-- Witness of C18: a three-byte string read with capacity 4, and one byte left. -/
theorem readString_capacity_witness :
    readLeb128 [3, 65, 66, 67, 9] = some (3, [65, 66, 67, 9]) ∧
      readString [3, 65, 66, 67, 9] 4 = some ([65, 66, 67, 0], [9]) ∧
      readString [3, 65, 66, 67, 9] 3 = none :=
  ⟨by decide,
    (((readString_capacity [3, 65, 66, 67, 9] 4).2 3 [65, 66, 67, 9] (by decide)).2.2.1
      (by decide) (by decide)).1.trans (by decide),
    ((readString_capacity [3, 65, 66, 67, 9] 3).2 3 [65, 66, 67, 9] (by decide)).1 (by decide)⟩

namespace CCodeDataLog

/-! ## `New` -/

theorem CountActiveBlocks_length (c : CCodeDataLog) :
    c.CountActiveBlocks = addrTypes.countP (fun i => decide ((c.blocks i).length ≠ 0)) := by
  unfold CountActiveBlocks
  congr 1
  funext i
  cases h : c.blocks i with
  | nil => simp
  | cons x xs => simp

theorem exampleLayout_lengths (k : eCDLog_AddrType) :
    ((ctor.New exampleLayout).blocks k).length =
      [0x8000, 0, 0x20000, 0x10000, 0, 0, 0, 0].getD k.val 0 := by
  rw [New_blocks_length]
  revert k
  decide

theorem New_length_values (d : CCodeDataLog) (memory : CMemory) :
    ((d.New memory).blocks eCDLog_AddrType_CARTROM).length = memory.CalculatedSize % 2 ^ 32 ∧
      ((d.New memory).blocks eCDLog_AddrType_CARTRAM).length =
        (if memory.SRAMSize ≠ 0 then ((1 <<< (memory.SRAMSize + 3)) * 128) % 2 ^ 32 else 0) ∧
      ((d.New memory).blocks eCDLog_AddrType_WRAM).length = 0x20000 ∧
      ((d.New memory).blocks eCDLog_AddrType_APURAM).length = 0x10000 := by
  refine ⟨?_, ?_, ?_, ?_⟩ <;> rw [New_blocks_length] <;> rfl

/-- C11. Sizing by `New` on a newly constructed container: for a ROM size below
2^32 and an SRAM size code of at most 20, CARTROM has the ROM size, CARTRAM has
length 0 for code 0 and `128 * 2^(code + 3)` otherwise, WRAM has length
0x20000, APURAM 0x10000, the four SGB blocks length 0, and every byte of every
block is 0x00. For ROM size 0x8000 and code 0 the lengths are 0x8000, 0,
0x20000, 0x10000, 0, 0, 0, 0 and `CountActiveBlocks` is 3. -/
theorem New_sizing (memory : CMemory) (hR : memory.CalculatedSize < 2 ^ 32)
    (hs : memory.SRAMSize ≤ 20) :
    ((ctor.New memory).blocks eCDLog_AddrType_CARTROM).length = memory.CalculatedSize ∧
      ((ctor.New memory).blocks eCDLog_AddrType_CARTRAM).length =
        (if memory.SRAMSize = 0 then 0 else 128 * 2 ^ (memory.SRAMSize + 3)) ∧
      ((ctor.New memory).blocks eCDLog_AddrType_WRAM).length = 0x20000 ∧
      ((ctor.New memory).blocks eCDLog_AddrType_APURAM).length = 0x10000 ∧
      (∀ k : eCDLog_AddrType, 4 ≤ k.val → ((ctor.New memory).blocks k).length = 0) ∧
      (∀ k, ∀ b ∈ (ctor.New memory).blocks k, b = 0x00) ∧
      addrTypes.map (fun k => ((ctor.New exampleLayout).blocks k).length) =
        [0x8000, 0, 0x20000, 0x10000, 0, 0, 0, 0] ∧
      (ctor.New exampleLayout).CountActiveBlocks = 3 := by
  have hv := New_length_values ctor memory
  refine ⟨?_, ?_, hv.2.2.1, hv.2.2.2, ?_, ?_, ?_, ?_⟩
  · rw [hv.1]
    exact Nat.mod_eq_of_lt hR
  · rw [hv.2.1]
    by_cases h0 : memory.SRAMSize = 0
    · rw [if_neg (not_not.mpr h0), if_pos h0]
    · rw [if_pos h0, if_neg h0, Nat.shiftLeft_eq, Nat.one_mul, Nat.mul_comm]
      apply Nat.mod_eq_of_lt
      have h1 : 2 ^ (memory.SRAMSize + 3) ≤ 2 ^ 23 :=
        Nat.pow_le_pow_right (by decide) (by omega)
      have h2 : (2 : Nat) ^ 23 = 8388608 := by norm_num
      omega
  · intro k hk
    rw [New_blocks_length]
    have h3 : k ≠ eCDLog_AddrType_APURAM := by
      intro e; rw [e] at hk; revert hk; decide
    have h2 : k ≠ eCDLog_AddrType_WRAM := by
      intro e; rw [e] at hk; revert hk; decide
    have h1 : k ≠ eCDLog_AddrType_CARTRAM := by
      intro e; rw [e] at hk; revert hk; decide
    have h0 : k ≠ eCDLog_AddrType_CARTROM := by
      intro e; rw [e] at hk; revert hk; decide
    rw [if_neg h3, if_neg h2, if_neg h1, if_neg h0]
    rfl
  · intro k b hb
    rw [New_blocks_zero] at hb
    exact List.eq_of_mem_replicate hb
  · simp only [addrTypes, List.map_cons, List.map_nil, exampleLayout_lengths]
    rfl
  · rw [CountActiveBlocks_length]
    simp only [exampleLayout_lengths]
    decide

/-- Witness of C11: ROM size 0x8000 and SRAM size code 3. -/
theorem New_sizing_witness :
    (0x8000 : Nat) < 2 ^ 32 ∧ (3 : Nat) ≤ 20 ∧
      ((ctor.New ⟨0x8000, 3⟩).blocks eCDLog_AddrType_CARTROM).length = 0x8000 ∧
      ((ctor.New ⟨0x8000, 3⟩).blocks eCDLog_AddrType_CARTRAM).length = 8192 :=
  ⟨by decide, by decide, (New_sizing ⟨0x8000, 3⟩ (by decide) (by decide)).1,
    (New_sizing ⟨0x8000, 3⟩ (by decide) (by decide)).2.1.trans (by decide)⟩

/-- C12, as stated, fails: a newly constructed container and the container left
by an earlier `LoadAsIs` of a file with an SGB_WRAM record of two bytes get
different SGB_WRAM blocks from `New` with the same layout (empty against two
zero bytes). -/
theorem New_replaces_counterexample :
    (LoadAsIs ctor (some sgbFile)).1 = true ∧
      ¬ (∀ k, (ctor.New smallLayout).blocks k = (sgbLog.New smallLayout).blocks k) :=
  ⟨by decide, fun h => absurd (h eCDLog_AddrType_SGB_WRAM) (by decide)⟩

theorem New_block_eq (d : CCodeDataLog) (memory : CMemory) (k : eCDLog_AddrType) :
    (d.New memory).blocks k = List.replicate
      (if k = eCDLog_AddrType_APURAM then 0x10000
        else if k = eCDLog_AddrType_WRAM then 0x20000
        else if k = eCDLog_AddrType_CARTRAM then
          (if memory.SRAMSize ≠ 0 then ((1 <<< (memory.SRAMSize + 3)) * 128) % 2 ^ 32 else 0)
        else if k = eCDLog_AddrType_CARTROM then memory.CalculatedSize % 2 ^ 32
        else (d.blocks k).length) 0 := by
  rw [New_blocks_zero, New_blocks_length]

/-- C12, amended. For every layout and every two prior container states, `New`
yields the same lengths and bytes in the blocks CARTROM, CARTRAM, WRAM and
APURAM; each of the four SGB blocks keeps the length it had before the call,
with every byte 0x00; so the two results agree in all eight blocks when the
prior states have SGB blocks of the same lengths; and calling `New` twice
equals calling it once. -/
theorem New_replaces (memory : CMemory) (d1 d2 : CCodeDataLog) :
    (∀ k : eCDLog_AddrType, k.val < 4 → (d1.New memory).blocks k = (d2.New memory).blocks k) ∧
      (∀ k : eCDLog_AddrType, 4 ≤ k.val →
        (d1.New memory).blocks k = List.replicate (d1.blocks k).length 0x00) ∧
      ((∀ k : eCDLog_AddrType, 4 ≤ k.val → (d1.blocks k).length = (d2.blocks k).length) →
        ∀ k, (d1.New memory).blocks k = (d2.New memory).blocks k) ∧
      (d1.New memory).New memory = d1.New memory := by
  have hlow : ∀ (d e : CCodeDataLog) (k : eCDLog_AddrType), k.val < 4 →
      (d.New memory).blocks k = (e.New memory).blocks k := by
    intro d e k hk
    rw [New_block_eq d, New_block_eq e]
    have : k = eCDLog_AddrType_APURAM ∨ k = eCDLog_AddrType_WRAM ∨
        k = eCDLog_AddrType_CARTRAM ∨ k = eCDLog_AddrType_CARTROM := by
      revert k
      decide
    rcases this with h | h | h | h <;> rw [h] <;> rfl
  have hhigh : ∀ (d : CCodeDataLog) (k : eCDLog_AddrType), 4 ≤ k.val →
      (d.New memory).blocks k = List.replicate (d.blocks k).length 0x00 := by
    intro d k hk
    rw [New_block_eq d]
    have h3 : k ≠ eCDLog_AddrType_APURAM := by
      intro e; rw [e] at hk; revert hk; decide
    have h2 : k ≠ eCDLog_AddrType_WRAM := by
      intro e; rw [e] at hk; revert hk; decide
    have h1 : k ≠ eCDLog_AddrType_CARTRAM := by
      intro e; rw [e] at hk; revert hk; decide
    have h0 : k ≠ eCDLog_AddrType_CARTROM := by
      intro e; rw [e] at hk; revert hk; decide
    rw [if_neg h3, if_neg h2, if_neg h1, if_neg h0]
  refine ⟨hlow d1 d2, hhigh d1, ?_, ?_⟩
  · intro hl k
    by_cases hk : k.val < 4
    · exact hlow d1 d2 k hk
    · rw [hhigh d1 k (by omega), hhigh d2 k (by omega), hl k (by omega)]
  · apply ext_blocks
    · intro k
      by_cases hk : k.val < 4
      · exact hlow _ _ k hk
      · rw [hhigh _ k (by omega), hhigh d1 k (by omega), List.length_replicate]
    · rfl

/-- Witness of amended C12: a newly constructed container and a container
whose CARTROM block holds one byte have SGB blocks of the same lengths. -/
theorem New_replaces_witness :
    (∀ k : eCDLog_AddrType, 4 ≤ k.val → (ctor.blocks k).length = (oneByteLog.blocks k).length) ∧
      ∀ k, (ctor.New smallLayout).blocks k = (oneByteLog.New smallLayout).blocks k :=
  ⟨by decide, (New_replaces smallLayout ctor oneByteLog).2.2.1 (by decide)⟩

end CCodeDataLog

namespace CCodeDataLog

/-! ## `LoadAsIs` and the prior state -/

theorem loadBlocks_congr (n : Nat) (c d : CCodeDataLog) (fp : InStream)
    (hb : c.blocks = d.blocks) :
    (loadBlocks n c fp).1 = (loadBlocks n d fp).1 ∧
      (loadBlocks n c fp).2.blocks = (loadBlocks n d fp).2.blocks := by
  induction n generalizing c d fp with
  | zero => exact ⟨rfl, hb⟩
  | succ n ih =>
    rw [loadBlocks, loadBlocks]
    cases readString fp 32 with
    | none => exact ⟨rfl, rfl⟩
    | some r =>
      obtain ⟨name, g⟩ := r
      simp only
      cases readInt g with
      | none => exact ⟨rfl, rfl⟩
      | some q =>
        obtain ⟨size, h⟩ := q
        simp only
        cases addrTypeDict_find (cstr name) with
        | none => exact ih c d h hb
        | some k =>
          simp only
          rw [hb]
          split
          · exact ⟨rfl, rfl⟩
          · apply ih
            unfold setBlock
            simp only [hb]

theorem LoadAsIs_prior (c : CCodeDataLog) (f : List Byte) :
    (LoadAsIs c (some f)).1 = (LoadAsIs ctor (some f)).1 ∧
      (LoadAsIs c (some f)).2.blocks = (LoadAsIs ctor (some f)).2.blocks := by
  unfold LoadAsIs
  simp only
  cases expectString f (cbytes "BIZHAWK-CDL-2") with
  | none => exact ⟨rfl, rfl⟩
  | some g =>
    simp only
    cases expectString g (cbytes "SNES           ") with
    | none => exact ⟨rfl, rfl⟩
    | some h =>
      simp only
      cases readInt h with
      | none => exact ⟨rfl, rfl⟩
      | some q =>
        obtain ⟨count, rest⟩ := q
        exact loadBlocks_congr _ _ _ _ rfl

theorem applyRecords_omitted (c : CCodeDataLog) (rs : List (List Byte × List Byte))
    (k : eCDLog_AddrType) (h : ∀ r ∈ rs, recordType r ≠ some k) :
    (applyRecords c rs).blocks k = c.blocks k := by
  induction rs generalizing c with
  | nil => rfl
  | cons r rs ih =>
    have hr := h r (List.mem_cons_self _ _)
    have hrs : ∀ x ∈ rs, recordType x ≠ some k := fun x hx => h x (List.mem_cons_of_mem _ hx)
    unfold applyRecords
    cases hj : recordType r with
    | none => exact ih c hrs
    | some j =>
      simp only
      rw [ih _ hrs]
      have : k ≠ j := by
        intro e
        rw [hj, e] at hr
        exact hr rfl
      simp [setBlock, this]

/-- C13, as stated, fails: the container holds a CARTROM byte, the file holds a
WRAM record and no CARTROM record, `LoadAsIs` accepts it, and the CARTROM block
is empty afterwards instead of holding its byte. -/
theorem LoadAsIs_omitted_blocks_counterexample :
    wramFile = encodeFile [(cbytes "WRAM", [7])] ∧
      (∀ r ∈ [(cbytes "WRAM", ([7] : List Byte))], recordType r ≠ some eCDLog_AddrType_CARTROM) ∧
      (LoadAsIs oneByteLog (some wramFile)).1 = true ∧
      ¬ ((LoadAsIs oneByteLog (some wramFile)).2.blocks eCDLog_AddrType_CARTROM =
        oneByteLog.blocks eCDLog_AddrType_CARTROM) := by
  refine ⟨rfl, ?_, by decide, by decide⟩
  intro r hr
  rw [List.mem_singleton] at hr
  rw [hr]
  decide

/-- C13, amended. For every prior container state and every file, `LoadAsIs`
returns what it returns on a newly constructed container and leaves the same
eight blocks: nothing of the prior blocks is kept. For a file of fewer than
2^31 loadable records (recognised names), `LoadAsIs` accepts it and each block
kind for which the file holds no record has length 0 after the call. -/
theorem LoadAsIs_omitted_blocks (c : CCodeDataLog) :
    (∀ f : List Byte, (LoadAsIs c (some f)).1 = (LoadAsIs ctor (some f)).1 ∧
        ∀ k, (LoadAsIs c (some f)).2.blocks k = (LoadAsIs ctor (some f)).2.blocks k) ∧
      ∀ (rs : List (List Byte × List Byte)) (t : List Byte), rs.length < 2 ^ 31 →
        (∀ r ∈ rs, Loadable r) → ∀ k, (∀ r ∈ rs, recordType r ≠ some k) →
        (LoadAsIs c (some (encodeFile rs ++ t))).1 = true ∧
          ((LoadAsIs c (some (encodeFile rs ++ t))).2.blocks k).length = 0 := by
  constructor
  · intro f
    have h := LoadAsIs_prior c f
    exact ⟨h.1, fun k => congrFun h.2 k⟩
  · intro rs t hn hrs k hk
    rw [LoadAsIs_encodeFile c rs t hn hrs]
    refine ⟨rfl, ?_⟩
    show ((applyRecords c.Close rs).blocks k).length = 0
    rw [applyRecords_omitted _ rs k hk]
    rfl

/-- Witness of amended C13: the container with a CARTROM byte and the file with
one WRAM record; CARTROM is empty afterwards. -/
theorem LoadAsIs_omitted_blocks_witness :
    ([(cbytes "WRAM", ([7] : List Byte))].length < 2 ^ 31 ∧
        (∀ r ∈ [(cbytes "WRAM", ([7] : List Byte))], Loadable r) ∧
        ∀ r ∈ [(cbytes "WRAM", ([7] : List Byte))], recordType r ≠ some eCDLog_AddrType_CARTROM) ∧
      (LoadAsIs oneByteLog (some (encodeFile [(cbytes "WRAM", [7])] ++ []))).1 = true ∧
      ((LoadAsIs oneByteLog (some (encodeFile [(cbytes "WRAM", [7])] ++ []))).2.blocks
        eCDLog_AddrType_CARTROM).length = 0 :=
  have h1 : ∀ r ∈ [(cbytes "WRAM", ([7] : List Byte))], Loadable r := fun r hr => by
    rw [List.mem_singleton] at hr
    rw [hr]
    exact ⟨by decide, by decide, 2, by decide⟩
  have h2 : ∀ r ∈ [(cbytes "WRAM", ([7] : List Byte))],
      recordType r ≠ some eCDLog_AddrType_CARTROM := fun r hr => by
    rw [List.mem_singleton] at hr
    rw [hr]
    decide
  ⟨⟨by decide, h1, h2⟩,
    (LoadAsIs_omitted_blocks oneByteLog).2 [(cbytes "WRAM", [7])] [] (by decide) h1
      eCDLog_AddrType_CARTROM h2⟩

/-! ## `LoadAsIs` after `Save`, and the block count -/

/-- C19. For every container `c` whose blocks are each shorter than 2^32 bytes
and every destination `d`: when `Save` on `c` returns true having written `f`,
`LoadAsIs` of `f` on `d` returns true and leaves `d` with the eight blocks of
`c` (empty where they are empty in `c`) and its own active flag. -/
theorem LoadAsIs_inverts_Save (c d : CCodeDataLog) (dest : Option Nat) (f : List Byte)
    (hlen : ∀ k, (c.blocks k).length < 2 ^ 32) (hsave : c.Save dest = some f) :
    (LoadAsIs d (some f)).1 = true ∧ (∀ k, (LoadAsIs d (some f)).2.blocks k = c.blocks k) ∧
      (LoadAsIs d (some f)).2.active = d.active := by
  rw [Save_some c dest f hsave, LoadAsIs_saved c d hlen]
  exact ⟨rfl, fun _ => rfl, rfl⟩

/-- Witness of C19: the container with a CARTROM and a WRAM block saved to a
device with room for 1000 bytes and loaded over a container that holds a
CARTROM byte. -/
theorem LoadAsIs_inverts_Save_witness :
    (∀ k, (twoBlockLog.blocks k).length < 2 ^ 32) ∧
      twoBlockLog.Save (some 1000) = some (encodeFile (twoBlockLog.blockRecords addrTypes)) ∧
      (LoadAsIs oneByteLog (some (encodeFile (twoBlockLog.blockRecords addrTypes)))).1 = true ∧
      (∀ k, (LoadAsIs oneByteLog (some (encodeFile (twoBlockLog.blockRecords addrTypes)))).2.blocks k =
        twoBlockLog.blocks k) ∧
      (LoadAsIs oneByteLog (some (encodeFile (twoBlockLog.blockRecords addrTypes)))).2.active =
        oneByteLog.active :=
  ⟨by decide, by decide,
    LoadAsIs_inverts_Save twoBlockLog oneByteLog (some 1000) _ (by decide) (by decide)⟩

/-- C20. The block count is read as a signed 32-bit integer: after the two
correct header strings and a four-byte count, a count of 2^31 or more makes
`LoadAsIs` read no record, return true and leave all eight blocks empty,
whatever bytes follow; a count below 2^31 makes it run the record loop for
exactly that many rounds on the emptied container. -/
theorem LoadAsIs_signed_count (c : CCodeDataLog) (f g h rest : List Byte) (count : Nat)
    (h1 : expectString f (cbytes "BIZHAWK-CDL-2") = some g)
    (h2 : expectString g (cbytes "SNES           ") = some h)
    (h3 : readInt h = some (count, rest)) :
    (2 ^ 31 ≤ count →
        (LoadAsIs c (some f)).1 = true ∧ (∀ k, (LoadAsIs c (some f)).2.blocks k = []) ∧
          (LoadAsIs c (some f)).2.active = c.active) ∧
      (count < 2 ^ 31 → LoadAsIs c (some f) = loadBlocks count c.Close rest) := by
  have e : LoadAsIs c (some f) = loadBlocks (loadRounds count) c.Close rest := by
    unfold LoadAsIs
    simp only [h1, h2, h3]
  rw [e]
  unfold loadRounds
  constructor
  · intro hc
    rw [if_neg (by omega)]
    exact ⟨rfl, fun _ => rfl, rfl⟩
  · intro hc
    rw [if_pos hc]

/-- Witness of C20: the count bytes 80 00 00 80 followed by a record cut short. -/
theorem LoadAsIs_signed_count_witness :
    expectString signedCountFile (cbytes "BIZHAWK-CDL-2") = some (signedCountFile.drop 14) ∧
      expectString (signedCountFile.drop 14) (cbytes "SNES           ") =
        some (signedCountFile.drop 30) ∧
      readInt (signedCountFile.drop 30) = some (0x80000080, [7, 67, 65]) ∧
      2 ^ 31 ≤ 0x80000080 ∧
      ((LoadAsIs oneByteLog (some signedCountFile)).1 = true ∧
        (∀ k, (LoadAsIs oneByteLog (some signedCountFile)).2.blocks k = []) ∧
        (LoadAsIs oneByteLog (some signedCountFile)).2.active = oneByteLog.active) :=
  ⟨by decide, by decide, by decide, by decide,
    (LoadAsIs_signed_count oneByteLog signedCountFile (signedCountFile.drop 14)
      (signedCountFile.drop 30) [7, 67, 65] 0x80000080 (by decide) (by decide) (by decide)).1
      (by decide)⟩

end CCodeDataLog
